import Mathlib

/-!
# Verification of the H.264 RTP payload engine (`aiortc/codecs/h264.py`)

A shallow embedding of the H.264 packetizer/depacketizer:

* `H264.parse`           — `H264PayloadDescriptor.parse` (depacketizer),
* `H264.fuA`             — `H264Encoder._packetize_fu_a` (FU-A fragmenter),
* `H264.stapA`           — `H264Encoder._packetize_stap_a` (STAP-A aggregator),
* `H264.packetize`       — `H264Encoder._packetize` (driver),
* `H264.splitBitstream`  — `H264Encoder._split_bitstream` (Annex B scanner),
* `H264.packerSplit`     — `H264Packer._split_bitstream` (guarded variant).

Bytes are `Nat`s (< 256 where it matters); Python buffers are `List Nat`.
Python exceptions (`IndexError`, `ValueError`) are modelled with `Option` /
`Except String`.  Loops whose termination is data dependent carry explicit
fuel, always instantiated large enough; sufficiency is proved where a claim
needs it.
-/

namespace H264

def PACKET_MAX : Nat := 1300

def NAL_TYPE_FU_A : Nat := 28

def NAL_TYPE_STAP_A : Nat := 24

def NAL_HEADER_SIZE : Nat := 1

def FU_A_HEADER_SIZE : Nat := 2

def LENGTH_FIELD_SIZE : Nat := 2

def STAP_A_HEADER_SIZE : Nat := NAL_HEADER_SIZE + LENGTH_FIELD_SIZE

/-- Python slice `buf[a:b]`. -/
def pySlice (buf : List Nat) (a b : Nat) : List Nat :=
  (buf.drop a).take (b - a)

/-- Python indexing `buf[i]`; `none` models an `IndexError`. -/
def bix (buf : List Nat) (i : Nat) : Option Nat :=
  buf.get? i

/-- `struct.pack("!H", n)`: 16-bit big-endian encoding. -/
def enc16 (n : Nat) : List Nat :=
  [n / 256 % 256, n % 256]

/-- `struct.unpack_from("!H", data, pos)`: read a 16-bit big-endian length. -/
def read16 (data : List Nat) (pos : Nat) : Nat :=
  data.getD pos 0 * 256 + data.getD (pos + 1) 0

/-- The offset-collecting loop of the STAP-A branch of
`H264PayloadDescriptor.parse`.  `pos` walks the payload; each entry records
the offset just after its two-byte length field.  The errors are the two
`ValueError`s raised by the source.  `fuel` only bounds the iteration count;
`parse` supplies enough for every input. -/
def stapScan (data : List Nat) : Nat → Nat → List Nat → Except String (List Nat)
  | 0, _, _ => .error "fuel"
  | fuel + 1, pos, offsets =>
    if pos < data.length then
      if data.length < pos + LENGTH_FIELD_SIZE then
        .error "STAP-A length field is truncated"
      else
        let nuluSize := read16 data pos
        let pos' := pos + LENGTH_FIELD_SIZE + nuluSize
        if data.length < pos' then
          .error "STAP-A data is truncated"
        else
          stapScan data fuel pos' (offsets ++ [pos + LENGTH_FIELD_SIZE])
    else
      .ok offsets

/-- The `pairwise(offsets)` output loop of the STAP-A branch: for each
consecutive pair `(start, end)` emit `00 00 00 01 ++ data[start:end-2]`. -/
def stapOut (data : List Nat) : List Nat → List Nat
  | a :: b :: rest => [0, 0, 0, 1] ++ pySlice data a (b - LENGTH_FIELD_SIZE) ++ stapOut data (b :: rest)
  | _ => []

/-- `H264PayloadDescriptor.parse`: returns the `first_fragment` flag and the
reconstructed Annex B output, or the `ValueError` message. -/
def parse (data : List Nat) : Except String (Bool × List Nat) :=
  if data.length < 2 then .error "NAL unit is too short"
  else
    let nalType := data.getD 0 0 &&& 0x1F
    let fNri := data.getD 0 0 &&& 0xE0
    if 1 ≤ nalType ∧ nalType < 24 then
      .ok (true, [0, 0, 0, 1] ++ data)
    else if nalType = NAL_TYPE_FU_A then
      let originalNalType := data.getD 1 0 &&& 0x1F
      let firstFragment := data.getD 1 0 &&& 0x80 ≠ 0
      let output :=
        (if firstFragment then [0, 0, 0, 1] ++ [fNri ||| originalNalType] else [])
          ++ data.drop 2
      .ok (firstFragment, output)
    else if nalType = NAL_TYPE_STAP_A then
      match stapScan data (data.length + 1) NAL_HEADER_SIZE [] with
      | .error e => .error e
      | .ok offsets =>
          .ok (true, stapOut data (offsets ++ [data.length + LENGTH_FIELD_SIZE]))
    else
      .error "NAL unit type is not supported"

/-- `h264_depayload`: the Annex B output of the descriptor parser. -/
def h264Depayload (payload : List Nat) : Except String (List Nat) :=
  match parse payload with
  | .ok (_, data) => .ok data
  | .error e => .error e

/-- Whether `parse` succeeds. -/
def parseOk (data : List Nat) : Bool :=
  match parse data with
  | .ok _ => true
  | .error _ => false

/-- Spec-side recognizer for the claim's "self-consistent STAP-A length
fields": the bytes after the STAP-A header split into entries, each a 2-byte
big-endian length followed by that many bytes. -/
def entriesFit : List Nat → Bool
  | [] => true
  | [_] => false
  | hi :: lo :: rest =>
    let n := hi * 256 + lo
    if rest.length < n then false else entriesFit (rest.drop n)
termination_by l => l.length
decreasing_by simp_wf; have := List.length_drop n rest; omega

/-- The claim's failure condition for `H264PayloadDescriptor.parse`: short
payload, unsupported NAL type, or inconsistent STAP-A length fields. -/
def parseFails (data : List Nat) : Prop :=
  data.length < 2
    ∨ (let t := data.getD 0 0 &&& 0x1F
       ¬(1 ≤ t ∧ t ≤ 23) ∧ t ≠ 24 ∧ t ≠ 28)
    ∨ (data.getD 0 0 &&& 0x1F = 24 ∧ entriesFit (data.drop 1) = false)

instance (data : List Nat) : Decidable (parseFails data) := by
  unfold parseFails; infer_instance

end H264

namespace H264

theorem getD_of_drop {data : List Nat} {pos x : Nat} {t : List Nat}
    (h : data.drop pos = x :: t) : data.getD pos 0 = x := by
  have h0 : data[pos]? = some x := by
    have := List.getElem?_drop data pos 0
    rw [h] at this
    simpa using this.symm
  simp [List.getD_eq_getElem?_getD, h0]

theorem drop_succ_of_drop {data : List Nat} {pos x : Nat} {t : List Nat}
    (h : data.drop pos = x :: t) : data.drop (pos + 1) = t := by
  have := List.drop_drop 1 pos data
  rw [h] at this
  simpa using this.symm

theorem stapScan_ok_iff (data : List Nat) :
    ∀ fuel pos offsets, pos ≤ data.length → data.length + 1 ≤ pos + fuel →
      ((∃ offs, stapScan data fuel pos offsets = .ok offs)
        ↔ entriesFit (data.drop pos) = true) := by
  intro fuel
  induction fuel with
  | zero => intro pos offsets h1 h2; omega
  | succ f ih =>
    intro pos offsets h1 h2
    rcases hd : data.drop pos with _ | ⟨hi, _ | ⟨lo, rest⟩⟩
    · -- no bytes left: loop exits, entriesFit [] = true
      have hlen : data.length ≤ pos := by
        have := List.length_drop pos data
        rw [hd] at this
        simp at this
        omega
      have hpos : ¬ pos < data.length := by omega
      simp [stapScan, hpos, entriesFit]
    · -- one byte left: truncated length field
      have hlen : data.length = pos + 1 := by
        have := List.length_drop pos data
        rw [hd] at this
        simp at this
        omega
      have hpos : pos < data.length := by omega
      have htr : data.length < pos + LENGTH_FIELD_SIZE := by
        simp [LENGTH_FIELD_SIZE]; omega
      simp [stapScan, hpos, htr, entriesFit]
    · -- length field present
      have hlen : data.length = pos + 2 + rest.length := by
        have := List.length_drop pos data
        rw [hd] at this
        simp at this
        omega
      have hpos : pos < data.length := by omega
      have htr : ¬ data.length < pos + LENGTH_FIELD_SIZE := by
        simp [LENGTH_FIELD_SIZE]; omega
      have hhi : data.getD pos 0 = hi := getD_of_drop hd
      have hlo : data.getD (pos + 1) 0 = lo := getD_of_drop (drop_succ_of_drop hd)
      have hread : read16 data pos = hi * 256 + lo := by
        unfold read16
        rw [hhi, hlo]
      have hdrop2 : data.drop (pos + 2) = rest := drop_succ_of_drop (drop_succ_of_drop hd)
      by_cases hfit : rest.length < hi * 256 + lo
      · -- declared bytes not present: truncated data
        have hd2 : data.length < pos + LENGTH_FIELD_SIZE + read16 data pos := by
          rw [hread]; simp [LENGTH_FIELD_SIZE]; omega
        simp [stapScan, hpos, htr, hd2, entriesFit, hfit]
      · have hd2 : ¬ data.length < pos + LENGTH_FIELD_SIZE + read16 data pos := by
          rw [hread]; simp [LENGTH_FIELD_SIZE]; omega
        have hdropn : data.drop (pos + LENGTH_FIELD_SIZE + read16 data pos)
            = rest.drop (hi * 256 + lo) := by
          have h3 := List.drop_drop (hi * 256 + lo) (pos + 2) data
          rw [hdrop2] at h3
          rw [hread]
          have harith : pos + LENGTH_FIELD_SIZE + (hi * 256 + lo)
              = pos + 2 + (hi * 256 + lo) := by
            simp [LENGTH_FIELD_SIZE]
          rw [harith, ← h3]
        have hrec := ih (pos + LENGTH_FIELD_SIZE + read16 data pos)
          (offsets ++ [pos + LENGTH_FIELD_SIZE])
          (by rw [hread]; simp [LENGTH_FIELD_SIZE]; omega)
          (by rw [hread]; simp [LENGTH_FIELD_SIZE]; omega)
        rw [hdropn] at hrec
        have hstep : ∀ offs0 : List Nat, stapScan data (f + 1) pos offs0
            = stapScan data f (pos + LENGTH_FIELD_SIZE + read16 data pos)
                (offs0 ++ [pos + LENGTH_FIELD_SIZE]) := by
          intro offs0
          simp [stapScan, hpos, htr, hd2]
        simp only [hstep]
        rw [hrec]
        have hfitstep : entriesFit (hi :: lo :: rest)
            = entriesFit (rest.drop (hi * 256 + lo)) := by
          simp [entriesFit, hfit]
        rw [hfitstep]


/-- **C8** — `H264PayloadDescriptor.parse` raises exactly on malformed
payloads: it fails iff the payload is shorter than 2 bytes, or its NAL type
(low 5 bits of the first byte) lies outside `{1..23, 24, 28}`, or it is a
STAP-A (type 24) whose length fields are inconsistent (a length field does
not fit inside the payload, or an entry's declared bytes are not present);
on every other input it returns a descriptor and output without raising. -/
theorem c8_parse_error_iff_malformed (data : List Nat) :
    parseOk data = false ↔ parseFails data := by
  simp only [parseOk, parseFails, parse, NAL_TYPE_FU_A, NAL_TYPE_STAP_A,
    NAL_HEADER_SIZE]
  by_cases hlen : data.length < 2
  · simp [hlen]
  · simp only [if_neg hlen]
    by_cases hsingle : 1 ≤ data.getD 0 0 &&& 31 ∧ data.getD 0 0 &&& 31 < 24
    · simp only [if_pos hsingle]
      constructor
      · intro h; cases h
      · rintro (h | ⟨h1, -, -⟩ | ⟨h24, -⟩)
        · exact absurd h hlen
        · exact (h1 ⟨hsingle.1, by omega⟩).elim
        · exact absurd h24 (by omega)
    · simp only [if_neg hsingle]
      by_cases hfu : data.getD 0 0 &&& 31 = 28
      · simp only [if_pos hfu]
        constructor
        · intro h; cases h
        · rintro (h | ⟨-, -, h28⟩ | ⟨h24, -⟩)
          · exact absurd h hlen
          · exact (h28 hfu).elim
          · exact absurd h24 (by omega)
      · simp only [if_neg hfu]
        by_cases hstap : data.getD 0 0 &&& 31 = 24
        · simp only [if_pos hstap]
          have hiff := stapScan_ok_iff data (data.length + 1) 1 []
            (by omega) (by omega)
          rcases hs : stapScan data (data.length + 1) 1 [] with e | offs
          · have hnf : entriesFit (data.drop 1) = false := by
              rcases hfit : entriesFit (data.drop 1) with - | -
              · rfl
              · exfalso
                rcases hiff.mpr hfit with ⟨offs, hoffs⟩
                rw [hs] at hoffs
                exact Except.noConfusion hoffs
            constructor
            · rintro -
              exact Or.inr (Or.inr ⟨hstap, hnf⟩)
            · rintro -
              trivial
          · constructor
            · intro h; cases h
            · rintro (h | ⟨-, h24, -⟩ | ⟨-, hbad⟩)
              · exact absurd h hlen
              · exact (h24 hstap).elim
              · have hfit : entriesFit (data.drop 1) = true := hiff.mp ⟨offs, hs⟩
                rw [hfit] at hbad
                exact Bool.noConfusion hbad
        · simp only [if_neg hstap]
          constructor
          · rintro -
            refine Or.inr (Or.inl ⟨?_, hstap, hfu⟩)
            rintro ⟨a, b⟩
            exact hsingle ⟨a, by omega⟩
          · rintro -
            trivial

/-- Annex B rendering: each NAL prefixed by the 4-byte start code. -/
def annexB (nals : List (List Nat)) : List Nat :=
  nals.foldr (fun n acc => [0, 0, 0, 1] ++ n ++ acc) []

/-- The body of a STAP-A packet: each entry is its 16-bit big-endian length
followed by the NAL unit bytes. -/
def stapBody (entries : List (List Nat)) : List Nat :=
  entries.foldr (fun n acc => enc16 n.length ++ n ++ acc) []

/-- The offsets `H264PayloadDescriptor.parse` collects while scanning a
well-formed STAP-A body: the data start of each entry. -/
def entryStarts : Nat → List (List Nat) → List Nat
  | _, [] => []
  | pos, n :: es => (pos + 2) :: entryStarts (pos + 2 + n.length) es

theorem stapBody_cons (n : List Nat) (es : List (List Nat)) :
    stapBody (n :: es)
      = n.length / 256 % 256 :: n.length % 256 :: (n ++ stapBody es) := rfl

theorem annexB_cons (n : List Nat) (es : List (List Nat)) :
    annexB (n :: es) = [0, 0, 0, 1] ++ n ++ annexB es := rfl

theorem read16_of_drop {data : List Nat} {pos L : Nat} {t : List Nat}
    (h : data.drop pos = L / 256 % 256 :: L % 256 :: t) (hL : L < 65536) :
    read16 data pos = L := by
  have hhi : data.getD pos 0 = L / 256 % 256 := getD_of_drop h
  have hlo : data.getD (pos + 1) 0 = L % 256 := getD_of_drop (drop_succ_of_drop h)
  unfold read16
  rw [hhi, hlo]
  omega

theorem stapScan_entries (data : List Nat) :
    ∀ entries fuel pos offsets,
      data.drop pos = stapBody entries →
      (∀ n ∈ entries, n.length < 65536) →
      pos ≤ data.length →
      data.length + 1 ≤ pos + fuel →
      stapScan data fuel pos offsets = .ok (offsets ++ entryStarts pos entries) := by
  intro entries
  induction entries with
  | nil =>
    intro fuel pos offsets hdrop hsz hle hfuel
    have hlen : data.length ≤ pos := by
      have := List.length_drop pos data
      rw [hdrop] at this
      simp [stapBody] at this
      omega
    obtain ⟨f, rfl⟩ : ∃ f, fuel = f + 1 := ⟨fuel - 1, by omega⟩
    have hpos : ¬ pos < data.length := by omega
    simp [stapScan, hpos, entryStarts]
  | cons n es ih =>
    intro fuel pos offsets hdrop hsz hle hfuel
    rw [stapBody_cons] at hdrop
    have hlen : data.length = pos + 2 + n.length + (stapBody es).length := by
      have := List.length_drop pos data
      rw [hdrop] at this
      simp at this
      omega
    obtain ⟨f, rfl⟩ : ∃ f, fuel = f + 1 := ⟨fuel - 1, by omega⟩
    have hpos : pos < data.length := by omega
    have htr : ¬ data.length < pos + LENGTH_FIELD_SIZE := by
      simp [LENGTH_FIELD_SIZE]; omega
    have hread : read16 data pos = n.length :=
      read16_of_drop hdrop (hsz n (by simp))
    have hd2 : ¬ data.length < pos + LENGTH_FIELD_SIZE + read16 data pos := by
      rw [hread]; simp [LENGTH_FIELD_SIZE]; omega
    have hdropn : data.drop (pos + LENGTH_FIELD_SIZE + read16 data pos)
        = stapBody es := by
      rw [hread]
      have h2 : data.drop (pos + 2) = n ++ stapBody es :=
        drop_succ_of_drop (drop_succ_of_drop hdrop)
      have h3 : data.drop (pos + 2 + n.length) = stapBody es := by
        have h5 := List.drop_drop n.length (pos + 2) data
        rw [h2, List.drop_left] at h5
        exact h5.symm
      have harith : pos + LENGTH_FIELD_SIZE + n.length = pos + 2 + n.length := by
        simp [LENGTH_FIELD_SIZE]
      rw [harith, h3]
    have hrec := ih f (pos + LENGTH_FIELD_SIZE + read16 data pos)
      (offsets ++ [pos + LENGTH_FIELD_SIZE]) hdropn
      (fun m hm => hsz m (by simp [hm]))
      (by rw [hread]; simp [LENGTH_FIELD_SIZE]; omega)
      (by rw [hread]; simp [LENGTH_FIELD_SIZE]; omega)
    simp only [stapScan, if_pos hpos, if_neg htr, if_neg hd2]
    rw [hrec]
    simp [entryStarts, LENGTH_FIELD_SIZE, hread]

theorem stapOut_entries (data : List Nat) :
    ∀ entries pos,
      data.drop pos = stapBody entries →
      data.length = pos + (stapBody entries).length →
      stapOut data (entryStarts pos entries ++ [data.length + LENGTH_FIELD_SIZE])
        = annexB entries := by
  intro entries
  induction entries with
  | nil =>
    intro pos hdrop hlen
    simp [entryStarts, stapOut, annexB]
  | cons n es ih =>
    intro pos hdrop hlen
    rw [stapBody_cons] at hdrop
    have hlen' : data.length = pos + 2 + n.length + (stapBody es).length := by
      rw [stapBody_cons] at hlen
      simp at hlen
      omega
    have hdrop2 : data.drop (pos + 2) = n ++ stapBody es :=
      drop_succ_of_drop (drop_succ_of_drop hdrop)
    have hdrop' : data.drop (pos + 2 + n.length) = stapBody es := by
      have h5 := List.drop_drop n.length (pos + 2) data
      rw [hdrop2, List.drop_left] at h5
      exact h5.symm
    obtain ⟨hd, tl, hT, hhd⟩ :
        ∃ hd tl,
          entryStarts (pos + 2 + n.length) es ++ [data.length + LENGTH_FIELD_SIZE]
            = hd :: tl ∧ hd = pos + 2 + n.length + 2 := by
      cases es with
      | nil =>
        refine ⟨data.length + LENGTH_FIELD_SIZE, [], by simp [entryStarts], ?_⟩
        simp [stapBody] at hlen'
        simp [LENGTH_FIELD_SIZE]
        omega
      | cons m es' =>
        exact ⟨pos + 2 + n.length + 2,
          entryStarts (pos + 2 + n.length + 2 + m.length) es'
            ++ [data.length + LENGTH_FIELD_SIZE],
          by simp [entryStarts], rfl⟩
    have hslice : pySlice data (pos + 2) (hd - LENGTH_FIELD_SIZE) = n := by
      rw [hhd]
      have he1 : pos + 2 + n.length + 2 - LENGTH_FIELD_SIZE = pos + 2 + n.length := by
        simp [LENGTH_FIELD_SIZE]
      rw [he1]
      unfold pySlice
      rw [hdrop2]
      have he2 : pos + 2 + n.length - (pos + 2) = n.length := by omega
      rw [he2]
      exact List.take_left n (stapBody es)
    have hrec := ih (pos + 2 + n.length) hdrop' (by omega)
    rw [hT] at hrec
    simp only [entryStarts, List.cons_append, hT]
    simp only [stapOut]
    rw [hslice, hrec, annexB_cons]

theorem parse_stap (h : Nat) (entries : List (List Nat))
    (htype : h &&& 0x1F = 24) (hne : entries ≠ [])
    (hsz : ∀ n ∈ entries, n.length < 65536) :
    parse (h :: stapBody entries) = .ok (true, annexB entries) := by
  have hbody : 2 ≤ (stapBody entries).length := by
    cases entries with
    | nil => exact absurd rfl hne
    | cons n es => rw [stapBody_cons]; simp
  have hlen : (h :: stapBody entries).length = 1 + (stapBody entries).length := by
    simp [Nat.add_comm]
  have hget : (h :: stapBody entries).getD 0 0 = h := rfl
  have hscan := stapScan_entries (h :: stapBody entries) entries
    ((h :: stapBody entries).length + 1) 1 []
    (by simp) hsz (by simp) (by omega)
  have hout := stapOut_entries (h :: stapBody entries) entries 1
    (by simp) (by simp [Nat.add_comm])
  simp only [parse, NAL_TYPE_FU_A, NAL_TYPE_STAP_A, NAL_HEADER_SIZE, hget]
  rw [if_neg (by simp; omega)]
  rw [if_neg (by rw [htype]; omega)]
  rw [if_neg (by rw [htype]; omega)]
  rw [if_pos (by rw [htype])]
  rw [hscan]
  simp only [List.nil_append]
  rw [hout]

/-- **C10** — lenient STAP-A ingress: for every payload whose first byte has
NAL type 24 and whose body is a self-consistent sequence of length-prefixed
entries (each 2-byte big-endian length field followed by that many bytes),
`H264PayloadDescriptor.parse` succeeds with `first_fragment = true`, even
when the packet aggregates exactly one NAL unit: the depacketizer does not
enforce the two-entry minimum the egress side guarantees. -/
theorem c10_stap_ingress_lenient (h : Nat) (entries : List (List Nat))
    (htype : h &&& 0x1F = 24) (hne : entries ≠ [])
    (hsz : ∀ n ∈ entries, n.length < 65536) :
    parse (h :: stapBody entries) = .ok (true, annexB entries) :=
  parse_stap h entries htype hne hsz

/-- Witness for C10 at a STAP-A packet carrying exactly one NAL unit. -/
theorem c10_stap_ingress_lenient_witness :
    parse [0x78, 0x00, 0x02, 0x67, 0xAA] = .ok (true, [0, 0, 0, 1, 0x67, 0xAA]) :=
  c10_stap_ingress_lenient 0x78 [[0x67, 0xAA]] (by decide) (by decide)
    (by decide)

/-- The fragment-emitting loop of `H264Encoder._packetize_fu_a` /
`H264Packer._packetize_fu_a` (their bodies are identical).  Each iteration
consumes `package_size (+ 1)` payload bytes and prepends the two FU header
bytes; the FU header switches to the end marker when the offset reaches the
end, and to the middle marker after the first packet.  `fuel` bounds the
iteration count; `packetizeFuA` supplies `data.length + 1`, enough whenever
`package_size ≥ 1`. -/
def fuALoop (data : List Nat) (fuInd hdrMid hdrEnd : Nat) :
    Nat → Nat → Nat → Nat → Nat → List (List Nat)
  | 0, _, _, _, _ => []
  | fuel + 1, offset, nLarger, pkgSize, hdrCur =>
    if offset < data.length then
      let step := if 0 < nLarger then pkgSize + 1 else pkgSize
      let payload := pySlice data offset (offset + step)
      let offset' := offset + step
      let hdr := if offset' = data.length then hdrEnd else hdrCur
      (fuInd :: hdr :: payload)
        :: fuALoop data fuInd hdrMid hdrEnd fuel offset' (nLarger - 1) pkgSize hdrMid
    else []

/-- `H264Encoder._packetize_fu_a` (= `H264Packer._packetize_fu_a`). -/
def packetizeFuA (data : List Nat) : List (List Nat) :=
  let availableSize := PACKET_MAX - FU_A_HEADER_SIZE
  let payloadSize := data.length - NAL_HEADER_SIZE
  let numPackets := (payloadSize + availableSize - 1) / availableSize
  let numLargerPackets := payloadSize % numPackets
  let packageSize := payloadSize / numPackets
  let fNri := data.getD 0 0 &&& (0x80 ||| 0x60)
  let nal := data.getD 0 0 &&& 0x1F
  let fuIndicator := fNri ||| NAL_TYPE_FU_A
  fuALoop data fuIndicator nal (nal ||| 0x40) (data.length + 1) NAL_HEADER_SIZE
    numLargerPackets packageSize (nal ||| 0x80)

/-- Reference shape of the FU-A output: one packet per scheduled size. -/
def fuSpec (data : List Nat) (fuInd hdrMid hdrEnd : Nat) :
    Nat → Nat → List Nat → List (List Nat)
  | _, _, [] => []
  | offset, _, [s] => [fuInd :: hdrEnd :: pySlice data offset (offset + s)]
  | offset, hdrCur, s :: s' :: szs =>
      (fuInd :: hdrCur :: pySlice data offset (offset + s))
        :: fuSpec data fuInd hdrMid hdrEnd (offset + s) hdrMid (s' :: szs)

theorem fuSpec_cons2 (data : List Nat) (fuInd hdrMid hdrEnd offset hdrCur s : Nat)
    (szs : List Nat) (h : szs ≠ []) :
    fuSpec data fuInd hdrMid hdrEnd offset hdrCur (s :: szs)
      = (fuInd :: hdrCur :: pySlice data offset (offset + s))
          :: fuSpec data fuInd hdrMid hdrEnd (offset + s) hdrMid szs := by
  cases szs with
  | nil => exact absurd rfl h
  | cons a t => rfl

theorem fuALoop_term (data : List Nat) (fuInd hdrMid hdrEnd : Nat) :
    ∀ fuel offset nL pS hdrCur, data.length ≤ offset →
      fuALoop data fuInd hdrMid hdrEnd fuel offset nL pS hdrCur = [] := by
  intro fuel
  cases fuel with
  | zero => intro offset nL pS hdrCur h; rfl
  | succ f =>
    intro offset nL pS hdrCur h
    simp [fuALoop, Nat.not_lt.mpr h]

theorem fuALoop_step (data : List Nat) (fuInd hdrMid hdrEnd f offset nL pS hdrCur : Nat)
    (h : offset < data.length) :
    fuALoop data fuInd hdrMid hdrEnd (f + 1) offset nL pS hdrCur
      = (fuInd
            :: (if offset + (if 0 < nL then pS + 1 else pS) = data.length
                then hdrEnd else hdrCur)
            :: pySlice data offset (offset + (if 0 < nL then pS + 1 else pS)))
        :: fuALoop data fuInd hdrMid hdrEnd f
            (offset + (if 0 < nL then pS + 1 else pS)) (nL - 1) pS hdrMid := by
  simp [fuALoop, h]

theorem fuALoop_eq_fuSpec (data : List Nat) (fuInd hdrMid hdrEnd pS : Nat)
    (hpS : 1 ≤ pS) :
    ∀ fuel nL m offset hdrCur,
      data.length = offset + (nL * (pS + 1) + m * pS) →
      1 ≤ nL + m →
      nL + m ≤ fuel →
      fuALoop data fuInd hdrMid hdrEnd fuel offset nL pS hdrCur
        = fuSpec data fuInd hdrMid hdrEnd offset hdrCur
            (List.replicate nL (pS + 1) ++ List.replicate m pS) := by
  intro fuel
  induction fuel with
  | zero => intro nL m offset hdrCur hlen h1 h2; omega
  | succ f ih =>
    intro nL m offset hdrCur hlen h1 h2
    cases nL with
    | zero =>
      have hm1 : 1 ≤ m := by omega
      have hmul : 1 * 1 ≤ m * pS := Nat.mul_le_mul hm1 hpS
      have hoff : offset < data.length := by simp at hlen; omega
      rw [fuALoop_step data fuInd hdrMid hdrEnd f offset 0 pS hdrCur hoff]
      simp only [Nat.lt_irrefl, if_false, ite_false]
      cases m with
      | zero => omega
      | succ m' =>
        cases m' with
        | zero =>
          have hend : offset + pS = data.length := by simp at hlen; omega
          rw [if_pos hend]
          rw [fuALoop_term data fuInd hdrMid hdrEnd f (offset + pS) (0 - 1) pS hdrMid
            (by omega)]
          simp [fuSpec]
        | succ k =>
          have hkmul : 1 * 1 ≤ (k + 1) * pS := Nat.mul_le_mul (by omega) hpS
          have hexp : (k + 2) * pS = pS + (k + 1) * pS := by ring
          have hlen' : data.length = (offset + pS) + (0 * (pS + 1) + (k + 1) * pS) := by
            simp at hlen ⊢
            rw [hexp] at hlen
            omega
          have hne : offset + pS ≠ data.length := by
            simp at hlen'
            omega
          rw [if_neg hne]
          rw [ih 0 (k + 1) (offset + pS) hdrMid hlen' (by omega) (by omega)]
          have hnn : (List.replicate 0 (pS + 1) ++ List.replicate (k + 1) pS : List Nat) ≠ [] := by
            simp
          rw [show (List.replicate 0 (pS + 1) ++ List.replicate (k + 1 + 1) pS : List Nat)
              = pS :: List.replicate (k + 1) pS from rfl]
          rw [fuSpec_cons2 data fuInd hdrMid hdrEnd offset hdrCur pS _ (by simp)]
          simp
    | succ L =>
      have hoff : offset < data.length := by
        have hmul : 1 * 1 ≤ (L + 1) * (pS + 1) := Nat.mul_le_mul (by omega) (by omega)
        omega
      rw [fuALoop_step data fuInd hdrMid hdrEnd f offset (L + 1) pS hdrCur hoff]
      simp only [Nat.succ_sub_one, Nat.zero_lt_succ, if_true, ite_true]
      by_cases hlast : L = 0 ∧ m = 0
      · rcases hlast with ⟨rfl, rfl⟩
        have hend : offset + (pS + 1) = data.length := by simp at hlen; omega
        rw [if_pos hend]
        rw [fuALoop_term data fuInd hdrMid hdrEnd f (offset + (pS + 1)) 0 pS hdrMid
          (by omega)]
        simp [fuSpec]
      · have hLm : 1 ≤ L + m := by omega
        have hexp : (L + 1) * (pS + 1) = L * (pS + 1) + (pS + 1) := by ring
        have hlen' : data.length
            = (offset + (pS + 1)) + (L * (pS + 1) + m * pS) := by
          rw [hexp] at hlen
          omega
        have hne : offset + (pS + 1) ≠ data.length := by
          have hmul : 1 * 1 ≤ L * (pS + 1) + m * pS := by
            rcases Nat.lt_or_ge 0 L with hL | hL
            · have := Nat.mul_le_mul (show 1 ≤ L by omega) (show 1 ≤ pS + 1 by omega)
              omega
            · have hm : 1 ≤ m := by omega
              have := Nat.mul_le_mul hm hpS
              omega
          omega
        rw [if_neg hne]
        rw [ih L m (offset + (pS + 1)) hdrMid hlen' (by omega) (by omega)]
        rw [show (List.replicate (L + 1) (pS + 1) ++ List.replicate m pS : List Nat)
            = (pS + 1) :: (List.replicate L (pS + 1) ++ List.replicate m pS) from rfl]
        rw [fuSpec_cons2 data fuInd hdrMid hdrEnd offset hdrCur (pS + 1) _
          (by simp; omega)]

theorem pySlice_length {data : List Nat} {a b : Nat} (h : b ≤ data.length)
    (hab : a ≤ b) : (pySlice data a b).length = b - a := by
  unfold pySlice
  simp [List.length_take, List.length_drop]
  omega

theorem sum_sched (a x b y : Nat) :
    (List.replicate a x ++ List.replicate b y).sum = a * x + b * y := by
  simp [List.sum_replicate, smul_eq_mul]

theorem fuSpec_length (data : List Nat) (fuInd hdrMid hdrEnd : Nat) :
    ∀ szs offset hdrCur,
      (fuSpec data fuInd hdrMid hdrEnd offset hdrCur szs).length = szs.length := by
  intro szs
  induction szs with
  | nil => intro offset hdrCur; rfl
  | cons s t ih =>
    intro offset hdrCur
    cases t with
    | nil => rfl
    | cons s' t' =>
      rw [fuSpec_cons2 data fuInd hdrMid hdrEnd offset hdrCur s _ (by simp)]
      simp only [List.length_cons]
      rw [ih (offset + s) hdrMid]
      simp

theorem fuSpec_map_length (data : List Nat) (fuInd hdrMid hdrEnd : Nat) :
    ∀ szs offset hdrCur,
      offset + szs.sum ≤ data.length →
      (fuSpec data fuInd hdrMid hdrEnd offset hdrCur szs).map List.length
        = szs.map (fun s => FU_A_HEADER_SIZE + s) := by
  intro szs
  induction szs with
  | nil => intro offset hdrCur hle; rfl
  | cons s t ih =>
    intro offset hdrCur hle
    simp only [List.sum_cons] at hle
    have hsl : (pySlice data offset (offset + s)).length = s := by
      rw [pySlice_length (by omega) (by omega)]
      omega
    cases t with
    | nil =>
      simp [fuSpec, FU_A_HEADER_SIZE, hsl]
      omega
    | cons s' t' =>
      rw [fuSpec_cons2 data fuInd hdrMid hdrEnd offset hdrCur s _ (by simp)]
      simp only [List.map_cons, List.length_cons, hsl]
      rw [ih (offset + s) hdrMid (by omega)]
      simp [FU_A_HEADER_SIZE]
      omega

theorem fuSpec_join (data : List Nat) (fuInd hdrMid hdrEnd : Nat) :
    ∀ szs offset hdrCur,
      data.length = offset + szs.sum →
      ((fuSpec data fuInd hdrMid hdrEnd offset hdrCur szs).map
          (fun p => p.drop FU_A_HEADER_SIZE)).flatten
        = data.drop offset := by
  intro szs
  induction szs with
  | nil =>
    intro offset hdrCur hlen
    simp at hlen
    simp [fuSpec, List.drop_eq_nil_of_le, hlen.le]
  | cons s t ih =>
    intro offset hdrCur hlen
    simp only [List.sum_cons] at hlen
    cases t with
    | nil =>
      simp only [List.sum_nil, Nat.add_zero] at hlen
      have : pySlice data offset (offset + s) = data.drop offset := by
        unfold pySlice
        have hl : (data.drop offset).length = s := by
          simp [List.length_drop]; omega
        rw [show offset + s - offset = s by omega, ← hl, List.take_length]
      simp [fuSpec, FU_A_HEADER_SIZE, this]
    | cons s' t' =>
      rw [fuSpec_cons2 data fuInd hdrMid hdrEnd offset hdrCur s _ (by simp)]
      simp only [List.map_cons, List.flatten_cons]
      rw [ih (offset + s) hdrMid (by omega)]
      show List.drop FU_A_HEADER_SIZE
          (fuInd :: _ :: pySlice data offset (offset + s)) ++ _ = _
      simp only [FU_A_HEADER_SIZE, List.drop_succ_cons, List.drop_zero]
      unfold pySlice
      rw [show offset + s - offset = s by omega]
      rw [← List.drop_drop s offset data]
      exact List.take_append_drop s (data.drop offset)

theorem fuSpec_headers (data : List Nat) (fuInd hdrMid hdrEnd : Nat) :
    ∀ szs offset hdrCur i, i < szs.length →
      ((fuSpec data fuInd hdrMid hdrEnd offset hdrCur szs).getD i []).getD 1 0
        = if i = szs.length - 1 then hdrEnd
          else if i = 0 then hdrCur else hdrMid := by
  intro szs
  induction szs with
  | nil => intro offset hdrCur i hi; simp at hi
  | cons s t ih =>
    intro offset hdrCur i hi
    cases t with
    | nil =>
      cases i with
      | zero => simp [fuSpec]
      | succ j => simp at hi
    | cons s' t' =>
      rw [fuSpec_cons2 data fuInd hdrMid hdrEnd offset hdrCur s _ (by simp)]
      cases i with
      | zero => simp
      | succ j =>
        have hj : j < (s' :: t').length := by simp at hi ⊢; omega
        have hrec := ih (offset + s) hdrMid j hj
        simp only [List.getD_cons_succ]
        rw [hrec, ite_self]
        simp only [List.length_cons]
        by_cases hlast : j = t'.length
        · rw [if_pos (by simpa using hlast), if_pos (by simp [hlast])]
        · rw [if_neg (by simpa using hlast), if_neg (by simp; omega), if_neg (by omega)]

theorem fu_arith (ps np : Nat) (hps : 1300 ≤ ps)
    (hnp : np = (ps + 1297) / 1298) :
    2 ≤ np ∧ np ≤ ps ∧ ps ≤ 1298 * np ∧ 1 ≤ ps / np ∧ ps % np < np
      ∧ np * (ps / np) + ps % np = ps := by
  have h2 : 2 ≤ np := by omega
  have hle : np ≤ ps := by omega
  have hub : ps ≤ 1298 * np := by omega
  have hpos : 0 < np := by omega
  exact ⟨h2, hle, hub, Nat.div_pos hle hpos, Nat.mod_lt ps hpos,
    Nat.div_add_mod ps np⟩

theorem sched_sum_eq (np pS nL ps : Nat) (hlt : nL < np)
    (hid : np * pS + nL = ps) :
    nL * (pS + 1) + (np - nL) * pS = ps := by
  obtain ⟨k, rfl⟩ : ∃ k, np = nL + k := ⟨np - nL, by omega⟩
  have hk : nL + k - nL = k := by omega
  rw [hk]
  have : nL * (pS + 1) + k * pS = (nL + k) * pS + nL := by ring
  omega

theorem packetizeFuA_eq_fuSpec (data : List Nat) (ps np : Nat)
    (hbig : PACKET_MAX < data.length)
    (hps : ps = data.length - NAL_HEADER_SIZE)
    (hnp : np = (ps + (PACKET_MAX - FU_A_HEADER_SIZE) - 1)
        / (PACKET_MAX - FU_A_HEADER_SIZE)) :
    packetizeFuA data
      = fuSpec data (data.getD 0 0 &&& 0xE0 ||| NAL_TYPE_FU_A)
          (data.getD 0 0 &&& 0x1F) (data.getD 0 0 &&& 0x1F ||| 0x40)
          NAL_HEADER_SIZE (data.getD 0 0 &&& 0x1F ||| 0x80)
          (List.replicate (ps % np) (ps / np + 1)
            ++ List.replicate (np - ps % np) (ps / np)) := by
  simp only [PACKET_MAX, NAL_HEADER_SIZE, FU_A_HEADER_SIZE] at hbig hps hnp
  have hps1300 : 1300 ≤ ps := by omega
  have hnp' : np = (ps + 1297) / 1298 := by omega
  obtain ⟨h2, hle, hub, hdiv1, hmod, hid⟩ := fu_arith ps np hps1300 hnp'
  have hsum : (ps % np) * (ps / np + 1) + (np - ps % np) * (ps / np) = ps :=
    sched_sum_eq np (ps / np) (ps % np) ps hmod hid
  unfold packetizeFuA
  simp only [PACKET_MAX, NAL_HEADER_SIZE, FU_A_HEADER_SIZE, NAL_TYPE_FU_A]
  rw [show (1300 : Nat) - 2 = 1298 from rfl]
  rw [show data.length - 1 = ps from hps.symm]
  rw [show (ps + 1298 - 1) / 1298 = np by omega]
  rw [fuALoop_eq_fuSpec data (data.getD 0 0 &&& (0x80 ||| 0x60) ||| 28)
    (data.getD 0 0 &&& 0x1F) (data.getD 0 0 &&& 0x1F ||| 0x40) (ps / np) hdiv1
    (data.length + 1) (ps % np) (np - ps % np) 1 (data.getD 0 0 &&& 0x1F ||| 0x80)
    (by rw [hsum]; omega) (by omega) (by omega)]
  rfl

theorem fu_hdr_bits : ∀ y < 32,
    (y ||| 128) &&& 128 = 128 ∧ (y ||| 128) &&& 64 = 0
      ∧ (y ||| 64) &&& 64 = 64 ∧ (y ||| 64) &&& 128 = 0
      ∧ y &&& 128 = 0 ∧ y &&& 64 = 0 := by decide

/-- **C4** — FU-A fragment law: for every NAL unit longer than `PACKET_MAX`,
the payload tails (bytes after the two FU header bytes) of the emitted
packets concatenate, in order, to `N[1:]`; at least two packets are emitted;
the FU header's S bit (0x80) is set exactly on the first packet and the
E bit (0x40) exactly on the last, so middle packets have both clear and no
packet carries both. -/
theorem c4_fu_fragment_law (data : List Nat) (hbig : PACKET_MAX < data.length) :
    (((packetizeFuA data).map (fun p => p.drop FU_A_HEADER_SIZE)).flatten
        = data.drop NAL_HEADER_SIZE)
    ∧ 2 ≤ (packetizeFuA data).length
    ∧ ∀ i, i < (packetizeFuA data).length →
        ((((packetizeFuA data).getD i []).getD 1 0 &&& 0x80 ≠ 0 ↔ i = 0)
          ∧ (((packetizeFuA data).getD i []).getD 1 0 &&& 0x40 ≠ 0
              ↔ i = (packetizeFuA data).length - 1)) := by
  obtain ⟨ps, hps⟩ : ∃ ps, ps = data.length - NAL_HEADER_SIZE := ⟨_, rfl⟩
  obtain ⟨np, hnp⟩ : ∃ np, np = (ps + (PACKET_MAX - FU_A_HEADER_SIZE) - 1)
      / (PACKET_MAX - FU_A_HEADER_SIZE) := ⟨_, rfl⟩
  have heq := packetizeFuA_eq_fuSpec data ps np hbig hps hnp
  obtain ⟨szs, hszs⟩ : ∃ l, l = List.replicate (ps % np) (ps / np + 1)
      ++ List.replicate (np - ps % np) (ps / np) := ⟨_, rfl⟩
  rw [← hszs] at heq
  have hps1300 : 1300 ≤ ps := by
    simp [PACKET_MAX] at hbig
    simp [NAL_HEADER_SIZE] at hps
    omega
  have hnp' : np = (ps + 1297) / 1298 := by
    simp [PACKET_MAX, FU_A_HEADER_SIZE] at hnp
    omega
  obtain ⟨h2, hle, hub, hdiv1, hmod, hid⟩ := fu_arith ps np hps1300 hnp'
  have hsum := sched_sum_eq np (ps / np) (ps % np) ps hmod hid
  have hsumszs : szs.sum = ps := by rw [hszs, sum_sched]; exact hsum
  have hlenszs : szs.length = np := by rw [hszs]; simp; omega
  have hlen1 : data.length = 1 + ps := by
    simp [NAL_HEADER_SIZE] at hps
    simp [PACKET_MAX] at hbig
    omega
  have hnal : data.getD 0 0 &&& 0x1F < 32 := by
    have h31 := @Nat.and_le_right (data.getD 0 0) 31
    omega
  obtain ⟨hb1, hb2, hb3, hb4, hb5, hb6⟩ :=
    fu_hdr_bits (data.getD 0 0 &&& 0x1F) hnal
  refine ⟨?_, ?_, ?_⟩
  · rw [heq]
    exact fuSpec_join data _ _ _ szs NAL_HEADER_SIZE _
      (by rw [hsumszs]; simp [NAL_HEADER_SIZE]; omega)
  · rw [heq, fuSpec_length]
    omega
  · intro i hi
    rw [heq] at hi ⊢
    rw [fuSpec_length] at hi
    have hv := fuSpec_headers data (data.getD 0 0 &&& 0xE0 ||| NAL_TYPE_FU_A)
      (data.getD 0 0 &&& 0x1F) (data.getD 0 0 &&& 0x1F ||| 0x40) szs
      NAL_HEADER_SIZE (data.getD 0 0 &&& 0x1F ||| 0x80) i hi
    rw [fuSpec_length, hv]
    by_cases hil : i = szs.length - 1
    · rw [if_pos hil]
      refine ⟨⟨fun h => (h hb4).elim, fun h0 => ?_⟩,
        ⟨fun _ => hil, fun _ => by rw [hb3]; omega⟩⟩
      exfalso
      omega
    · rw [if_neg hil]
      by_cases hi0 : i = 0
      · rw [if_pos hi0]
        exact ⟨⟨fun _ => hi0, fun _ => by rw [hb1]; omega⟩,
          ⟨fun h => (h hb2).elim, fun hl => (hil hl).elim⟩⟩
      · rw [if_neg hi0]
        exact ⟨⟨fun h => (h hb5).elim, fun h0 => (hi0 h0).elim⟩,
          ⟨fun h => (h hb6).elim, fun hl => (hil hl).elim⟩⟩

/-- Witness for C4 at a 1301-byte NAL unit of type 5. -/
theorem c4_fu_fragment_law_witness :
    (((packetizeFuA (0x65 :: List.replicate 1300 9)).map
          (fun p => p.drop FU_A_HEADER_SIZE)).flatten
        = (0x65 :: List.replicate 1300 9).drop NAL_HEADER_SIZE)
    ∧ ((packetizeFuA (0x65 :: List.replicate 1300 9)).getD 0 []).getD 1 0
        &&& 0x80 ≠ 0 := by
  have h := c4_fu_fragment_law (0x65 :: List.replicate 1300 9)
    (by simp only [List.length_cons, List.length_replicate, PACKET_MAX]; omega)
  refine ⟨h.1, ?_⟩
  have h2 := h.2.1
  have h0 := h.2.2 0 (by omega)
  exact h0.1.mpr rfl

/-- **C5** — FU-A deterministic sizing: with `payload_size = len(N) - 1`,
`available = PACKET_MAX - 2`, and `num_packets = ceil(payload_size /
available)`, the fragmenter emits exactly `num_packets` packets; the first
`payload_size mod num_packets` packets carry `payload_size div num_packets
+ 1` payload bytes (plus the 2 header bytes), the remaining ones
`payload_size div num_packets`. -/
theorem c5_fu_deterministic_sizing (data : List Nat) (ps np : Nat)
    (hbig : PACKET_MAX < data.length)
    (hps : ps = data.length - NAL_HEADER_SIZE)
    (hnp : np = (ps + (PACKET_MAX - FU_A_HEADER_SIZE) - 1)
        / (PACKET_MAX - FU_A_HEADER_SIZE)) :
    (packetizeFuA data).length = np
    ∧ (packetizeFuA data).map List.length
      = List.replicate (ps % np) (FU_A_HEADER_SIZE + (ps / np + 1))
        ++ List.replicate (np - ps % np) (FU_A_HEADER_SIZE + ps / np) := by
  have heq := packetizeFuA_eq_fuSpec data ps np hbig hps hnp
  have hps1300 : 1300 ≤ ps := by
    simp [PACKET_MAX] at hbig
    simp [NAL_HEADER_SIZE] at hps
    omega
  have hnp' : np = (ps + 1297) / 1298 := by
    simp [PACKET_MAX, FU_A_HEADER_SIZE] at hnp
    omega
  obtain ⟨h2, hle, hub, hdiv1, hmod, hid⟩ := fu_arith ps np hps1300 hnp'
  have hsum := sched_sum_eq np (ps / np) (ps % np) ps hmod hid
  have hlen1 : data.length = 1 + ps := by
    simp [NAL_HEADER_SIZE] at hps
    simp [PACKET_MAX] at hbig
    omega
  constructor
  · rw [heq, fuSpec_length]
    simp
    omega
  · rw [heq]
    rw [fuSpec_map_length data _ _ _ _ NAL_HEADER_SIZE _
      (by rw [sum_sched]; simp [NAL_HEADER_SIZE]; omega)]
    simp [List.map_replicate]

/-- Witness for C5 at a 1301-byte NAL unit: 2 packets of 652 bytes each. -/
theorem c5_fu_deterministic_sizing_witness :
    (packetizeFuA (0x65 :: List.replicate 1300 9)).length = 2
    ∧ (packetizeFuA (0x65 :: List.replicate 1300 9)).map List.length
        = List.replicate 2 652 := by
  have h := c5_fu_deterministic_sizing (0x65 :: List.replicate 1300 9) 1300 2
    (by simp only [List.length_cons, List.length_replicate, PACKET_MAX]; omega)
    (by simp only [List.length_cons, List.length_replicate, NAL_HEADER_SIZE])
    (by decide)
  rcases h with ⟨ha, hb⟩
  refine ⟨ha, ?_⟩
  rw [hb]
  simp [FU_A_HEADER_SIZE]

/-- One header update of the STAP-A aggregation loop: OR in the F bit of the
aggregated NAL, then raise the NRI field if the NAL's NRI is larger
(`stap_header & 0x9F | nri`). -/
def stepH (h b : Nat) : Nat :=
  let h1 := h ||| (b &&& 0x80)
  if h1 &&& 0x60 < b &&& 0x60 then h1 &&& 0x9F ||| (b &&& 0x60) else h1

/-- The `while len(nalu) <= available_size` loop of
`H264Encoder._packetize_stap_a` (= `H264Packer._packetize_stap_a`): folds
header updates and appends `pack("!H", len(nalu)) + nalu` to the payload,
pulling the next NAL from the iterator; `StopIteration` is the empty-list
case.  Returns `(available, header, payload, counter, pulled nalu, rest)`. -/
def stapLoop : Int → Nat → List Nat → Nat → List Nat → List (List Nat) →
    Int × Nat × List Nat × Nat × Option (List Nat) × List (List Nat)
  | avail, h, body, counter, nalu, rest =>
    if (nalu.length : Int) ≤ avail then
      let h' := stepH h (nalu.headD 0)
      let avail' := avail - (LENGTH_FIELD_SIZE + nalu.length)
      let body' := body ++ enc16 nalu.length ++ nalu
      match rest with
      | [] => (avail', h', body', counter + 1, none, [])
      | n :: rest' => stapLoop avail' h' body' (counter + 1) n rest'
    else
      (avail, h, body, counter, some nalu, rest)

/-- `H264Encoder._packetize_stap_a` (= `H264Packer._packetize_stap_a`),
with the iterator modelled as the list `rest` of NALs after `data`.
Returns the emitted payload, the pulled-but-unconsumed next NAL (`None`
when the iterator is exhausted), and the untouched remainder of the
iterator. -/
def stapA (data : List Nat) (rest : List (List Nat)) :
    List Nat × Option (List Nat) × List (List Nat) :=
  match stapLoop ((PACKET_MAX : Int) - STAP_A_HEADER_SIZE)
      (NAL_TYPE_STAP_A ||| (data.headD 0 &&& 0xE0)) [] 0 data rest with
  | (_, h, body, counter, next, rest') =>
    if counter = 0 then
      match rest' with
      | [] => (data, none, [])
      | n :: rs => (data, some n, rs)
    else if counter ≤ 1 then (data, next, rest')
    else (h :: body, next, rest')

/-- The STAP-A header byte computed by the aggregation loop over the
aggregated NALs (the first of which seeds the initial header). -/
def stapHeaderOf (A : List (List Nat)) : Nat :=
  (A.map (fun n => n.headD 0)).foldl stepH
    (NAL_TYPE_STAP_A ||| ((A.headD []).headD 0 &&& 0xE0))

/-- The STAP-A packet the aggregator emits for the aggregated NALs `A`. -/
def mkStap (A : List (List Nat)) : List Nat :=
  stapHeaderOf A :: stapBody A

theorem stapBody_length_cons (n : List Nat) (es : List (List Nat)) :
    (stapBody (n :: es)).length = 2 + n.length + (stapBody es).length := by
  rw [stapBody_cons]
  simp
  omega

theorem stapBody_single (n : List Nat) : stapBody [n] = enc16 n.length ++ n := by
  simp [stapBody, enc16]

theorem stapBody_length_cons' (n : List Nat) (es : List (List Nat)) :
    (stapBody (n :: es)).length
      = LENGTH_FIELD_SIZE + n.length + (stapBody es).length := by
  rw [stapBody_length_cons, LENGTH_FIELD_SIZE]

theorem stapLoop_stop (avail : Int) (h : Nat) (body : List Nat) (counter : Nat)
    (nalu : List Nat) (rest : List (List Nat))
    (hg : ¬ (nalu.length : Int) ≤ avail) :
    stapLoop avail h body counter nalu rest
      = (avail, h, body, counter, some nalu, rest) := by
  rw [stapLoop, if_neg hg]

theorem stapLoop_last (avail : Int) (h : Nat) (body : List Nat) (counter : Nat)
    (nalu : List Nat) (hg : (nalu.length : Int) ≤ avail) :
    stapLoop avail h body counter nalu []
      = (avail - (LENGTH_FIELD_SIZE + nalu.length), stepH h (nalu.headD 0),
         body ++ enc16 nalu.length ++ nalu, counter + 1, none, []) := by
  rw [stapLoop, if_pos hg]

theorem stapLoop_cons_step (avail : Int) (h : Nat) (body : List Nat)
    (counter : Nat) (nalu n : List Nat) (rest : List (List Nat))
    (hg : (nalu.length : Int) ≤ avail) :
    stapLoop avail h body counter nalu (n :: rest)
      = stapLoop (avail - (LENGTH_FIELD_SIZE + nalu.length))
          (stepH h (nalu.headD 0)) (body ++ enc16 nalu.length ++ nalu)
          (counter + 1) n rest := by
  rw [stapLoop, if_pos hg]

set_option maxRecDepth 4000 in
theorem stapLoop_spec :
    ∀ (rest : List (List Nat)) (avail : Int) (h : Nat) (body : List Nat)
      (counter : Nat) (nalu : List Nat),
      ∃ taken next rest',
        stapLoop avail h body counter nalu rest
          = (avail - ((stapBody taken).length : Int),
             (taken.map (fun n => n.headD 0)).foldl stepH h,
             body ++ stapBody taken, counter + taken.length, next, rest')
        ∧ nalu :: rest = taken ++ next.toList ++ rest'
        ∧ (∀ n ∈ taken, (n.length : Int) ≤ avail)
        ∧ (taken = [] → next = some nalu ∧ rest' = rest)
        ∧ (taken ≠ [] → -2 ≤ avail - ((stapBody taken).length : Int))
        ∧ (next = none → rest' = []) := by
  intro rest
  induction rest with
  | nil =>
    intro avail h body counter nalu
    by_cases hg : (nalu.length : Int) ≤ avail
    · refine ⟨[nalu], none, [], ?_, by simp, ?_, by simp, ?_, by simp⟩
      · rw [stapLoop_last avail h body counter nalu hg]
        rw [show (stapBody [nalu]).length = LENGTH_FIELD_SIZE + nalu.length by
          rw [stapBody_length_cons']; simp [stapBody]]
        rw [stapBody_single]
        simp only [List.map_cons, List.map_nil, List.foldl_cons, List.foldl_nil,
          List.length_cons, List.length_nil, List.append_assoc]
        push_cast
        norm_num
      · intro n hn
        simp at hn
        rw [hn]
        exact hg
      · rintro -
        rw [show (stapBody [nalu]).length = LENGTH_FIELD_SIZE + nalu.length by
          rw [stapBody_length_cons']; simp [stapBody]]
        simp only [LENGTH_FIELD_SIZE]
        push_cast
        omega
    · refine ⟨[], some nalu, [], ?_, by simp, by simp, by simp, by simp, by simp⟩
      rw [stapLoop_stop avail h body counter nalu [] hg]
      simp [stapBody]
  | cons n rest'' ih =>
    intro avail h body counter nalu
    by_cases hg : (nalu.length : Int) ≤ avail
    · obtain ⟨taken', next', restOut, htup, hdec, hmem, hnil, hbound, hnone⟩ :=
        ih (avail - (LENGTH_FIELD_SIZE + nalu.length)) (stepH h (nalu.headD 0))
          (body ++ enc16 nalu.length ++ nalu) (counter + 1) n
      have hlenc : ((stapBody (nalu :: taken')).length : Int)
          = (LENGTH_FIELD_SIZE + (nalu.length : Int)) + (stapBody taken').length := by
        rw [stapBody_length_cons', LENGTH_FIELD_SIZE]
        push_cast
        ring
      refine ⟨nalu :: taken', next', restOut, ?_, ?_, ?_, by simp, ?_, hnone⟩
      · rw [stapLoop_cons_step avail h body counter nalu n rest'' hg]
        rw [htup]
        rw [show (body ++ enc16 nalu.length ++ nalu) ++ stapBody taken'
            = body ++ stapBody (nalu :: taken') by
          rw [stapBody_cons]; simp [enc16]]
        rw [show (taken'.map (fun n => n.headD 0)).foldl stepH (stepH h (nalu.headD 0))
            = ((nalu :: taken').map (fun n => n.headD 0)).foldl stepH h by
          simp [List.foldl_cons]]
        rw [show counter + 1 + taken'.length = counter + (nalu :: taken').length by
          simp; omega]
        rw [hlenc]
        have : avail - (LENGTH_FIELD_SIZE + (nalu.length : Int))
            - ((stapBody taken').length : Int)
            = avail - (LENGTH_FIELD_SIZE + (nalu.length : Int)
                + ((stapBody taken').length : Int)) := by ring
        rw [this]
      · rw [hdec]
        simp
      · intro m hm
        rcases List.mem_cons.mp hm with rfl | hm
        · exact hg
        · have hmle := hmem m hm
          have hpos : (0 : Int) ≤ nalu.length := by positivity
          simp only [LENGTH_FIELD_SIZE] at hmle
          omega
      · rintro -
        rw [hlenc]
        rcases taken' with _ | ⟨t0, ts⟩
        · simp only [stapBody, List.foldr_nil, List.length_nil, LENGTH_FIELD_SIZE,
            Nat.cast_zero]
          push_cast
          omega
        · have hbnd := hbound (by simp)
          simp only [LENGTH_FIELD_SIZE] at hbnd ⊢
          push_cast at hbnd ⊢
          omega
    · refine ⟨[], some nalu, n :: rest'', ?_, by simp, by simp, by simp, by simp,
        by simp⟩
      rw [stapLoop_stop avail h body counter nalu (n :: rest'') hg]
      simp [stapBody]

theorem stapA_spec (data : List Nat) (rest : List (List Nat)) :
    ∃ taken next rest' pl,
      stapA data rest = (pl, next, rest')
      ∧ rest = taken ++ next.toList ++ rest'
      ∧ (next = none → rest' = [])
      ∧ ((pl = data ∧ taken = [])
        ∨ (taken ≠ [] ∧ pl = mkStap (data :: taken)
            ∧ pl.length ≤ PACKET_MAX
            ∧ ∀ n ∈ data :: taken, n.length ≤ 1297)) := by
  obtain ⟨takenL, next0, rest0, htup, hdec, hmem, hnil, hbound, hnone⟩ :=
    stapLoop_spec rest ((PACKET_MAX : Int) - STAP_A_HEADER_SIZE)
      (NAL_TYPE_STAP_A ||| (data.headD 0 &&& 0xE0)) [] 0 data
  have havail : ((PACKET_MAX : Nat) : Int) - ((STAP_A_HEADER_SIZE : Nat) : Int)
      = 1297 := by
    simp [PACKET_MAX, STAP_A_HEADER_SIZE, NAL_HEADER_SIZE, LENGTH_FIELD_SIZE]
  rcases takenL with _ | ⟨t0, tsAll⟩
  · -- the first NAL did not fit: counter stays 0, a fresh NAL is pulled
    obtain ⟨hnx, hr0⟩ := hnil rfl
    subst hr0
    rcases rest0 with _ | ⟨r, rs⟩
    · refine ⟨[], none, [], data, ?_, by simp, by simp, Or.inl ⟨rfl, rfl⟩⟩
      unfold stapA
      rw [htup]
      rfl
    · refine ⟨[], some r, rs, data, ?_, by simp, by simp, Or.inl ⟨rfl, rfl⟩⟩
      unfold stapA
      rw [htup]
      rfl
  · rcases tsAll with _ | ⟨t1, ts⟩
    · -- exactly one NAL aggregated: return it verbatim
      rw [List.cons_append, List.nil_append] at hdec
      injection hdec with ht0 hrest
      refine ⟨[], next0, rest0, data, ?_, by simpa using hrest, hnone,
        Or.inl ⟨rfl, rfl⟩⟩
      unfold stapA
      rw [htup]
      rfl
    · -- at least two NALs aggregated: a STAP-A packet is emitted
      rw [List.cons_append] at hdec
      injection hdec with ht0 hrest
      subst ht0
      refine ⟨t1 :: ts, next0, rest0,
        ((data :: t1 :: ts).map (fun n => n.headD 0)).foldl stepH
            (NAL_TYPE_STAP_A ||| (data.headD 0 &&& 0xE0))
          :: stapBody (data :: t1 :: ts),
        ?_, by simpa using hrest, hnone, Or.inr ⟨by simp, rfl, ?_, ?_⟩⟩
      · unfold stapA
        rw [htup]
        simp
      · have hb := hbound (by simp)
        simp only [PACKET_MAX, STAP_A_HEADER_SIZE, NAL_HEADER_SIZE,
          LENGTH_FIELD_SIZE] at hb ⊢
        simp only [List.length_cons]
        push_cast at hb
        omega
      · intro n hn
        have hle := hmem n hn
        simp only [PACKET_MAX, STAP_A_HEADER_SIZE, NAL_HEADER_SIZE,
          LENGTH_FIELD_SIZE] at hle
        push_cast at hle
        omega

/-- The driver loop of `H264Encoder._packetize` (= `H264Packer._packetize`):
oversized NALs go to the FU-A fragmenter, the rest to the STAP-A aggregator,
which returns the next pending NAL.  `fuel` bounds the iteration count;
`packetize` supplies `length + 1`, enough because every iteration consumes
at least one pending NAL. -/
def packetizeGo : Nat → Option (List Nat) → List (List Nat) → List (List Nat)
  | 0, _, _ => []
  | _ + 1, none, _ => []
  | fuel + 1, some package, it =>
    if PACKET_MAX < package.length then
      packetizeFuA package ++ packetizeGo fuel it.head? it.tail
    else
      match stapA package it with
      | (pl, next, it') => pl :: packetizeGo fuel next it'

/-- `H264Encoder._packetize` (= `H264Packer._packetize`) on a materialized
NAL sequence. -/
def packetize (packages : List (List Nat)) : List (List Nat) :=
  packetizeGo (packages.length + 1) packages.head? packages.tail

theorem fuA_sizes_bound (data : List Nat) (hbig : PACKET_MAX < data.length) :
    ∀ p ∈ packetizeFuA data, p.length ≤ PACKET_MAX := by
  obtain ⟨ps, hps⟩ : ∃ ps, ps = data.length - NAL_HEADER_SIZE := ⟨_, rfl⟩
  obtain ⟨np, hnp⟩ : ∃ np, np = (ps + (PACKET_MAX - FU_A_HEADER_SIZE) - 1)
      / (PACKET_MAX - FU_A_HEADER_SIZE) := ⟨_, rfl⟩
  have heq := packetizeFuA_eq_fuSpec data ps np hbig hps hnp
  have hps1300 : 1300 ≤ ps := by
    simp [PACKET_MAX] at hbig
    simp [NAL_HEADER_SIZE] at hps
    omega
  have hnp' : np = (ps + 1297) / 1298 := by
    simp [PACKET_MAX, FU_A_HEADER_SIZE] at hnp
    omega
  obtain ⟨h2, hle, hub, hdiv1, hmod, hid⟩ := fu_arith ps np hps1300 hnp'
  have hsum := sched_sum_eq np (ps / np) (ps % np) ps hmod hid
  have hlen1 : data.length = 1 + ps := by
    simp [NAL_HEADER_SIZE] at hps
    simp [PACKET_MAX] at hbig
    omega
  have hpS : ps / np ≤ 1298 := by
    have hcomm : 1298 * np = np * 1298 := Nat.mul_comm 1298 np
    have hmul := Nat.div_mul_le_self ps np
    by_contra hcon
    have h1299 : 1299 ≤ ps / np := by omega
    have := Nat.mul_le_mul_left np h1299
    omega
  have hpS1 : 0 < ps % np → ps / np ≤ 1297 := by
    intro hpos
    have hcomm : 1298 * np = np * 1298 := Nat.mul_comm 1298 np
    by_contra hcon
    have h1298 : 1298 ≤ ps / np := by omega
    have := Nat.mul_le_mul_left np h1298
    omega
  intro p hp
  rw [heq] at hp
  have hlenp : p.length ∈ (fuSpec data (data.getD 0 0 &&& 0xE0 ||| NAL_TYPE_FU_A)
      (data.getD 0 0 &&& 0x1F) (data.getD 0 0 &&& 0x1F ||| 0x40) NAL_HEADER_SIZE
      (data.getD 0 0 &&& 0x1F ||| 0x80)
      (List.replicate (ps % np) (ps / np + 1)
        ++ List.replicate (np - ps % np) (ps / np))).map List.length :=
    List.mem_map_of_mem List.length hp
  rw [fuSpec_map_length data _ _ _ _ NAL_HEADER_SIZE _
    (by rw [sum_sched]; simp [NAL_HEADER_SIZE]; omega)] at hlenp
  rw [List.mem_map] at hlenp
  obtain ⟨s, hs, hlenval⟩ := hlenp
  rw [List.mem_append] at hs
  rcases hs with hs | hs
  · have hs1 := List.eq_of_mem_replicate hs
    have hpos : 0 < ps % np := by
      rcases Nat.eq_zero_or_pos (ps % np) with h0 | h0
      · rw [h0] at hs; simp at hs
      · exact h0
    have := hpS1 hpos
    simp [PACKET_MAX, FU_A_HEADER_SIZE] at hlenval ⊢
    omega
  · have hs1 := List.eq_of_mem_replicate hs
    simp [PACKET_MAX, FU_A_HEADER_SIZE] at hlenval ⊢
    omega

theorem packetizeGo_size :
    ∀ fuel cur it p, p ∈ packetizeGo fuel cur it → p.length ≤ PACKET_MAX := by
  intro fuel
  induction fuel with
  | zero => intro cur it p hp; simp [packetizeGo] at hp
  | succ f ih =>
    intro cur it p hp
    cases cur with
    | none => simp [packetizeGo] at hp
    | some package =>
      by_cases hbig : PACKET_MAX < package.length
      · simp only [packetizeGo, if_pos hbig, List.mem_append] at hp
        rcases hp with hp | hp
        · exact fuA_sizes_bound package hbig p hp
        · exact ih it.head? it.tail p hp
      · simp only [packetizeGo, if_neg hbig] at hp
        obtain ⟨taken, next, it', pl, heq, hdec, hnn, hcls⟩ := stapA_spec package it
        rw [heq] at hp
        simp only [List.mem_cons] at hp
        rcases hp with rfl | hp
        · rcases hcls with ⟨hpl, -⟩ | ⟨-, -, hsz, -⟩
          · rw [hpl]; omega
          · exact hsz
        · exact ih next it' p hp

/-- **C2** — size bound: for every finite sequence of (nonempty) NAL units
given to the packetizer driver, every RTP payload in the returned list —
single NAL, STAP-A or FU-A — has length at most `PACKET_MAX = 1300`. -/
theorem c2_size_bound (nals : List (List Nat)) (hne : ∀ n ∈ nals, n ≠ []) :
    ∀ p ∈ packetize nals, p.length ≤ PACKET_MAX := by
  intro p hp
  exact packetizeGo_size (nals.length + 1) nals.head? nals.tail p hp

/-- Witness for C2: two small NALs aggregate into one STAP-A of 9 bytes. -/
theorem c2_size_bound_witness :
    (∀ n ∈ [[0x67, 0xAA], [0x68, 0xBB]], n ≠ ([] : List Nat))
    ∧ [0x78, 0x00, 0x02, 0x67, 0xAA, 0x00, 0x02, 0x68, 0xBB].length ≤ PACKET_MAX := by
  constructor
  · decide
  · exact c2_size_bound [[0x67, 0xAA], [0x68, 0xBB]] (by decide)
      [0x78, 0x00, 0x02, 0x67, 0xAA, 0x00, 0x02, 0x68, 0xBB] (by decide)

theorem head_cons_tail (it : List (List Nat)) :
    it.head?.toList ++ it.tail = it := by
  cases it <;> simp

theorem packetizeGo_classify :
    ∀ fuel cur it p, p ∈ packetizeGo fuel cur it →
      p ∈ cur.toList ++ it
      ∨ (∃ n, n ∈ cur.toList ++ it ∧ PACKET_MAX < n.length ∧ p ∈ packetizeFuA n)
      ∨ (∃ A, 2 ≤ A.length ∧ p = mkStap A ∧ ∀ n ∈ A, n ∈ cur.toList ++ it) := by
  intro fuel
  induction fuel with
  | zero => intro cur it p hp; simp [packetizeGo] at hp
  | succ f ih =>
    intro cur it p hp
    cases cur with
    | none => simp [packetizeGo] at hp
    | some package =>
      by_cases hbig : PACKET_MAX < package.length
      · simp only [packetizeGo, if_pos hbig, List.mem_append] at hp
        rcases hp with hp | hp
        · exact Or.inr (Or.inl ⟨package, by simp, hbig, hp⟩)
        · rcases ih it.head? it.tail p hp with hm | ⟨n, hn, hnl, hpn⟩ | ⟨A, hA2, hpA, hAm⟩
          · rw [head_cons_tail] at hm
            exact Or.inl (by simp [hm])
          · rw [head_cons_tail] at hn
            exact Or.inr (Or.inl ⟨n, by simp [hn], hnl, hpn⟩)
          · refine Or.inr (Or.inr ⟨A, hA2, hpA, ?_⟩)
            intro n hn
            have := hAm n hn
            rw [head_cons_tail] at this
            simp [this]
      · simp only [packetizeGo, if_neg hbig] at hp
        obtain ⟨taken, next, it', pl, heq, hdec, hnn, hcls⟩ := stapA_spec package it
        rw [heq] at hp
        simp only [List.mem_cons] at hp
        rcases hp with rfl | hp
        · rcases hcls with ⟨hpl, -⟩ | ⟨htk, hpl, -, -⟩
          · rw [hpl]; exact Or.inl (by simp)
          · refine Or.inr (Or.inr ⟨package :: taken, ?_, hpl, ?_⟩)
            · cases taken with
              | nil => exact absurd rfl htk
              | cons a t => simp
            · intro n hn
              rcases List.mem_cons.mp hn with rfl | hn
              · simp
              · rw [hdec]
                simp [hn]
        · rcases ih next it' p hp with hm | ⟨n, hn, hnl, hpn⟩ | ⟨A, hA2, hpA, hAm⟩
          · rw [List.mem_append] at hm
            rcases hm with hm | hm
            · rw [hdec]
              simp [hm]
            · rw [hdec]
              simp [hm]
          · rw [List.mem_append] at hn
            refine Or.inr (Or.inl ⟨n, ?_, hnl, hpn⟩)
            rw [hdec]
            rcases hn with hn | hn <;> simp [hn]
          · refine Or.inr (Or.inr ⟨A, hA2, hpA, ?_⟩)
            intro n hn
            have hm := hAm n hn
            rw [List.mem_append] at hm
            rw [hdec]
            rcases hm with hm | hm <;> simp [hm]

/-- **C6** — STAP-A minimum: every RTP payload emitted by the packetizer is
either an input NAL returned verbatim (the aggregator declines to wrap a
single NAL), an FU-A fragment of an oversized input NAL, or a STAP-A packet
built by the aggregator over at least two NAL units. -/
theorem c6_stap_minimum (nals : List (List Nat)) :
    ∀ p ∈ packetize nals,
      p ∈ nals
      ∨ (∃ n, n ∈ nals ∧ PACKET_MAX < n.length ∧ p ∈ packetizeFuA n)
      ∨ (∃ A, 2 ≤ A.length ∧ p = mkStap A) := by
  intro p hp
  rcases packetizeGo_classify (nals.length + 1) nals.head? nals.tail p hp
    with hm | ⟨n, hn, hnl, hpn⟩ | ⟨A, hA2, hpA, -⟩
  · rw [head_cons_tail] at hm
    exact Or.inl hm
  · rw [head_cons_tail] at hn
    exact Or.inr (Or.inl ⟨n, hn, hnl, hpn⟩)
  · exact Or.inr (Or.inr ⟨A, hA2, hpA⟩)

/-- Witness for C6 at two small NALs: the emitted payload is a STAP-A over
exactly two NAL units. -/
theorem c6_stap_minimum_witness :
    [0x78, 0x00, 0x02, 0x67, 0xAA, 0x00, 0x02, 0x68, 0xBB]
        ∈ packetize [[0x67, 0xAA], [0x68, 0xBB]]
    ∧ ([0x78, 0x00, 0x02, 0x67, 0xAA, 0x00, 0x02, 0x68, 0xBB]
          ∈ ([[0x67, 0xAA], [0x68, 0xBB]] : List (List Nat))
        ∨ (∃ n, n ∈ ([[0x67, 0xAA], [0x68, 0xBB]] : List (List Nat))
            ∧ PACKET_MAX < n.length
            ∧ [0x78, 0x00, 0x02, 0x67, 0xAA, 0x00, 0x02, 0x68, 0xBB]
                ∈ packetizeFuA n)
        ∨ (∃ A, 2 ≤ A.length
            ∧ [0x78, 0x00, 0x02, 0x67, 0xAA, 0x00, 0x02, 0x68, 0xBB] = mkStap A)) :=
  ⟨by decide,
   c6_stap_minimum [[0x67, 0xAA], [0x68, 0xBB]]
     [0x78, 0x00, 0x02, 0x67, 0xAA, 0x00, 0x02, 0x68, 0xBB] (by decide)⟩

set_option maxRecDepth 2000 in
theorem and96_cases : ∀ b < 256,
    b &&& 96 = 0 ∨ b &&& 96 = 32 ∨ b &&& 96 = 64 ∨ b &&& 96 = 96 := by decide

set_option maxRecDepth 2000 in
theorem and128_cases : ∀ b < 256, b &&& 128 = 0 ∨ b &&& 128 = 128 := by decide

set_option maxRecDepth 4000 in
theorem stepH_bits8 : ∀ h < 256,
    ∀ b ∈ ([0, 32, 64, 96, 128, 160, 192, 224] : List Nat),
      stepH h b &&& 96 = max (h &&& 96) (b &&& 96)
        ∧ stepH h b &&& 128 = (h &&& 128) ||| (b &&& 128)
        ∧ stepH h b < 256 := by decide

theorem stepH_bits (h b : Nat) (hh : h < 256) (hb : b < 256) :
    stepH h b &&& 96 = max (h &&& 96) (b &&& 96)
      ∧ stepH h b &&& 128 = (h &&& 128) ||| (b &&& 128)
      ∧ stepH h b < 256 := by
  have hx := and96_cases b hb
  have hy := and128_cases b hb
  have hmem : (b &&& 96) + (b &&& 128) ∈ ([0, 32, 64, 96, 128, 160, 192, 224] : List Nat) := by
    rcases hx with hx | hx | hx | hx <;> rcases hy with hy | hy <;>
      rw [hx, hy] <;> decide
  have e96 : ((b &&& 96) + (b &&& 128)) &&& 96 = b &&& 96 := by
    rcases hx with hx | hx | hx | hx <;> rcases hy with hy | hy <;>
      rw [hx, hy] <;> decide
  have e128 : ((b &&& 96) + (b &&& 128)) &&& 128 = b &&& 128 := by
    rcases hx with hx | hx | hx | hx <;> rcases hy with hy | hy <;>
      rw [hx, hy] <;> decide
  have hkey := stepH_bits8 h hh ((b &&& 96) + (b &&& 128)) hmem
  have estep : stepH h ((b &&& 96) + (b &&& 128)) = stepH h b := by
    simp only [stepH]
    rw [e96, e128]
  rw [estep, e96, e128] at hkey
  exact hkey

theorem foldl_stepH_bits (bs : List Nat) :
    ∀ h, h < 256 → (∀ b ∈ bs, b < 256) →
      (bs.foldl stepH h) &&& 96 = (bs.map (fun b => b &&& 96)).foldl max (h &&& 96)
      ∧ (bs.foldl stepH h) &&& 128
          = (bs.map (fun b => b &&& 128)).foldl (· ||| ·) (h &&& 128)
      ∧ bs.foldl stepH h < 256 := by
  induction bs with
  | nil => intro h hh hb; exact ⟨rfl, rfl, hh⟩
  | cons b bs ih =>
    intro h hh hb
    obtain ⟨h96, h128, hlt⟩ := stepH_bits h b hh (hb b (by simp))
    obtain ⟨ih96, ih128, ihlt⟩ := ih (stepH h b) hlt (fun x hx => hb x (by simp [hx]))
    refine ⟨?_, ?_, by simpa using ihlt⟩
    · simp only [List.foldl_cons, List.map_cons]
      rw [ih96, h96]
    · simp only [List.foldl_cons, List.map_cons]
      rw [ih128, h128]

set_option maxRecDepth 2000 in
theorem stap_init_bits : ∀ b < 256,
    (NAL_TYPE_STAP_A ||| (b &&& 0xE0)) < 256
    ∧ (NAL_TYPE_STAP_A ||| (b &&& 0xE0)) &&& 96 = b &&& 96
    ∧ (NAL_TYPE_STAP_A ||| (b &&& 0xE0)) &&& 128 = b &&& 128 := by decide

theorem stapHeaderOf_law (A : List (List Nat)) (hne : A ≠ [])
    (hb : ∀ n ∈ A, n.headD 0 < 256) :
    stapHeaderOf A &&& 0x60 = (A.map (fun n => n.headD 0 &&& 0x60)).foldl max 0
    ∧ stapHeaderOf A &&& 0x80
        = (A.map (fun n => n.headD 0 &&& 0x80)).foldl (· ||| ·) 0 := by
  rcases A with _ | ⟨a, as⟩
  · exact absurd rfl hne
  have ha : a.headD 0 < 256 := hb a (by simp)
  obtain ⟨hi1, hi2, hi3⟩ := stap_init_bits (a.headD 0) ha
  obtain ⟨f96, f128, flt⟩ := foldl_stepH_bits ((a :: as).map (fun n => n.headD 0))
    (NAL_TYPE_STAP_A ||| (a.headD 0 &&& 0xE0)) hi1
    (by intro b hb'
        rw [List.mem_map] at hb'
        obtain ⟨n, hn, rfl⟩ := hb'
        exact hb n hn)
  unfold stapHeaderOf
  simp only [List.headD_cons]
  constructor
  · rw [f96, hi2]
    rw [List.map_map]
    simp only [Function.comp, List.map_cons, List.foldl_cons, max_self]
    have hz : max 0 (a.headD 0 &&& 96) = a.headD 0 &&& 96 := by omega
    rw [hz]
    rfl
  · rw [f128, hi3]
    rw [List.map_map]
    simp only [Function.comp, List.map_cons, List.foldl_cons]
    have hself : (a.headD 0 &&& 128) ||| (a.headD 0 &&& 128) = a.headD 0 &&& 128 := by
      have := and128_cases (a.headD 0) ha
      rcases this with h1 | h1 <;> rw [h1] <;> decide
    have hz : 0 ||| (a.headD 0 &&& 128) = a.headD 0 &&& 128 := by
      have := and128_cases (a.headD 0) ha
      rcases this with h1 | h1 <;> rw [h1] <;> decide
    rw [hself, hz]
    rfl

/-- **C7** — STAP-A NRI/F law: every payload the packetizer emits is a
verbatim NAL, an FU-A fragment, or a STAP-A packet whose header byte has
NRI field (bits 0x60) equal to the maximum of `nalu[0] & 0x60` over the
aggregated NALs and F bit (0x80) equal to the OR of their F bits. -/
theorem c7_stap_nri_f_law (nals : List (List Nat))
    (hbyte : ∀ n ∈ nals, n.headD 0 < 256) :
    ∀ p ∈ packetize nals,
      p ∈ nals
      ∨ (∃ n, n ∈ nals ∧ PACKET_MAX < n.length ∧ p ∈ packetizeFuA n)
      ∨ (∃ A, 2 ≤ A.length ∧ p = mkStap A
          ∧ stapHeaderOf A &&& 0x60
              = (A.map (fun n => n.headD 0 &&& 0x60)).foldl max 0
          ∧ stapHeaderOf A &&& 0x80
              = (A.map (fun n => n.headD 0 &&& 0x80)).foldl (· ||| ·) 0) := by
  intro p hp
  rcases packetizeGo_classify (nals.length + 1) nals.head? nals.tail p hp
    with hm | ⟨n, hn, hnl, hpn⟩ | ⟨A, hA2, hpA, hAm⟩
  · rw [head_cons_tail] at hm
    exact Or.inl hm
  · rw [head_cons_tail] at hn
    exact Or.inr (Or.inl ⟨n, hn, hnl, hpn⟩)
  · have hbA : ∀ n ∈ A, n.headD 0 < 256 := by
      intro n hn
      have := hAm n hn
      rw [head_cons_tail] at this
      exact hbyte n this
    obtain ⟨l96, l128⟩ := stapHeaderOf_law A (by rintro rfl; simp at hA2) hbA
    exact Or.inr (Or.inr ⟨A, hA2, hpA, l96, l128⟩)

/-- Witness for C7: the STAP-A emitted for two small NALs satisfies the
NRI/F law (header `0x78`: NRI `0x60` from `0x67`, F clear). -/
theorem c7_stap_nri_f_law_witness :
    [0x78, 0x00, 0x02, 0x67, 0xAA, 0x00, 0x02, 0x68, 0xBB]
        ∈ ([[0x67, 0xAA], [0x68, 0xBB]] : List (List Nat))
    ∨ (∃ n, n ∈ ([[0x67, 0xAA], [0x68, 0xBB]] : List (List Nat))
        ∧ PACKET_MAX < n.length
        ∧ [0x78, 0x00, 0x02, 0x67, 0xAA, 0x00, 0x02, 0x68, 0xBB]
            ∈ packetizeFuA n)
    ∨ (∃ A, 2 ≤ A.length
        ∧ [0x78, 0x00, 0x02, 0x67, 0xAA, 0x00, 0x02, 0x68, 0xBB] = mkStap A
        ∧ stapHeaderOf A &&& 0x60
            = (A.map (fun n => n.headD 0 &&& 0x60)).foldl max 0
        ∧ stapHeaderOf A &&& 0x80
            = (A.map (fun n => n.headD 0 &&& 0x80)).foldl (· ||| ·) 0) :=
  c7_stap_nri_f_law [[0x67, 0xAA], [0x68, 0xBB]] (by decide)
    [0x78, 0x00, 0x02, 0x67, 0xAA, 0x00, 0x02, 0x68, 0xBB] (by decide)

/-- The start-code-skipping condition of `H264Encoder._split_bitstream`
(the first `while`): Python's short-circuit evaluation of
`(buf[i]!=0 or buf[i+1]!=0 or buf[i+2]!=1) and (buf[i]!=0 or buf[i+1]!=0 or
buf[i+2]!=0 or buf[i+3]!=1)`, with `none` for an `IndexError`. -/
def skipCond (buf : List Nat) (i : Nat) : Option Bool :=
  match bix buf i with
  | none => none
  | some b0 =>
    if b0 ≠ 0 then some true
    else
      match bix buf (i + 1) with
      | none => none
      | some b1 =>
        if b1 ≠ 0 then some true
        else
          match bix buf (i + 2) with
          | none => none
          | some b2 =>
            if b2 = 1 then some false
            else if b2 ≠ 0 then some true
            else
              match bix buf (i + 3) with
              | none => none
              | some b3 => some (b3 != 1)

/-- The NAL-terminating condition of the inner `while` of
`_split_bitstream`: `(buf[i]!=0 or buf[i+1]!=0 or buf[i+2]!=0) and
(buf[i]!=0 or buf[i+1]!=0 or buf[i+2]!=1)` with short-circuit and
`IndexError` as `none`. -/
def innerCond (buf : List Nat) (i : Nat) : Option Bool :=
  match bix buf i with
  | none => none
  | some b0 =>
    if b0 ≠ 0 then some true
    else
      match bix buf (i + 1) with
      | none => none
      | some b1 =>
        if b1 ≠ 0 then some true
        else
          match bix buf (i + 2) with
          | none => none
          | some b2 => some (!(b2 == 0 || b2 == 1))

/-- `buf[i] != 0 or buf[i+1] != 0 or buf[i+2] != 0x01` re-examined after the
skip loop exits (all three reads are then in bounds). -/
def is3SC (buf : List Nat) (i : Nat) : Bool :=
  buf.getD i 0 == 0 && buf.getD (i + 1) 0 == 0 && buf.getD (i + 2) 0 == 1

/-- Control state of `_split_bitstream`: scanning for a start code from
index `i`, or scanning for the end of the NAL that starts at `ns`. -/
inductive ScPhase
  | skip : Nat → ScPhase
  | nal : Nat → Nat → ScPhase

/-- `H264Encoder._split_bitstream` as a step-indexed interpreter.  Each
constructor-step mirrors one iteration of the Python loops: the skip loop
advances `i` (returning when fewer than 5 bytes remain past the new `i`),
a matched start code enters the NAL phase 3 or 4 bytes further, the inner
loop advances until a terminator window (yielding `buf[ns:i]`) or until the
buffer end (yielding `buf[ns:len]` and stopping).  `none` models an
`IndexError` (or fuel exhaustion; `splitBitstream` supplies enough fuel for
every input). -/
def scanAux (buf : List Nat) : Nat → ScPhase → Option (List (List Nat))
  | 0, _ => none
  | fuel + 1, .skip i =>
    match skipCond buf i with
    | none => none
    | some true =>
        if buf.length ≤ i + 5 then some []
        else scanAux buf fuel (.skip (i + 1))
    | some false =>
        scanAux buf fuel (.nal (if is3SC buf i then i + 3 else i + 4)
          (if is3SC buf i then i + 3 else i + 4))
  | fuel + 1, .nal ns i =>
    match innerCond buf i with
    | none => none
    | some false =>
        match scanAux buf fuel (.skip i) with
        | none => none
        | some rest => some (pySlice buf ns i :: rest)
    | some true =>
        if buf.length ≤ i + 4 then some [pySlice buf ns buf.length]
        else scanAux buf fuel (.nal ns (i + 1))

/-- `H264Encoder._split_bitstream buf`, run to completion. -/
def splitBitstream (buf : List Nat) : Option (List (List Nat)) :=
  scanAux buf (2 * buf.length + 8) (.skip 0)

/-- `H264Packer._split_bitstream`: the same body guarded by
`if len(buf) >= 1 + 3`; on a shorter buffer the outer `while True` spins
forever, which the fuel models: no amount of fuel produces a result. -/
def packerSplit : Nat → List Nat → Option (List (List Nat))
  | 0, _ => none
  | fuel + 1, buf =>
    if 1 + 3 ≤ buf.length then splitBitstream buf
    else packerSplit fuel buf

/-- **C3** — the scanners are *not* total, contradicting the claim (and the
source's own FIXME comment acknowledges the fragility): the codec-backed
variant `H264Encoder._split_bitstream` raises `IndexError` on the 4-byte
buffer `00 00 00 01` (and on `00`), both shorter-than-or-equal-to 4 inputs
that the claim says must yield no NAL units without failing; the
pass-through variant `H264Packer._split_bitstream` loops forever on any
buffer shorter than 4 bytes — no amount of fuel makes its outer `while
True` produce a value. -/
theorem c3_scanner_not_total :
    splitBitstream [0, 0, 0, 1] = none
    ∧ splitBitstream [0] = none
    ∧ ∀ fuel, packerSplit fuel [0, 0, 0] = none := by
  refine ⟨by decide, by decide, ?_⟩
  intro fuel
  induction fuel with
  | zero => rfl
  | succ f ih =>
    simp only [packerSplit]
    rw [if_neg (by decide)]
    exact ih

/-- No 3-byte window `00 00 00` or `00 00 01` inside the NAL: the scanner's
terminator patterns never fire strictly inside it. -/
def noWin (n : List Nat) : Prop :=
  ∀ p, p < n.length → p + 2 < n.length →
    ¬(n.getD p 0 = 0 ∧ n.getD (p + 1) 0 = 0
      ∧ (n.getD (p + 2) 0 = 0 ∨ n.getD (p + 2) 0 = 1))

instance (n : List Nat) : Decidable (noWin n) := by
  unfold noWin; infer_instance

/-- The shape of NAL unit the Annex B scanner reproduces exactly: nonempty,
not ending in a zero byte, and free of terminator windows. -/
def GoodNal (n : List Nat) : Prop :=
  n ≠ [] ∧ n.getLast? ≠ some 0 ∧ noWin n

instance (n : List Nat) : Decidable (GoodNal n) := by
  unfold GoodNal; infer_instance

theorem bix_of_drop {buf : List Nat} {i x : Nat} {t : List Nat}
    (h : buf.drop i = x :: t) : bix buf i = some x := by
  unfold bix
  have h0 := List.getElem?_drop buf i 0
  rw [h] at h0
  rw [List.get?_eq_getElem?]
  simpa using h0.symm

theorem innerCond_eval3 {buf : List Nat} {i a b c : Nat} {t : List Nat}
    (h : buf.drop i = a :: b :: c :: t) :
    innerCond buf i = some ((!(a == 0)) || (!(b == 0)) || (!(c == 0 || c == 1))) := by
  have h1 := drop_succ_of_drop h
  have h2 := drop_succ_of_drop h1
  unfold innerCond
  rw [bix_of_drop h]
  by_cases ha : a = 0
  · subst ha
    simp only [ne_eq, not_true_eq_false, if_false, ite_false]
    rw [bix_of_drop h1]
    by_cases hb : b = 0
    · subst hb
      simp only [ne_eq, not_true_eq_false, if_false, ite_false]
      rw [bix_of_drop h2]
      simp
    · simp [hb]
  · simp [ha]

theorem innerCond_eval2 {buf : List Nat} {i a b : Nat}
    (h : buf.drop i = [a, b]) (hab : ¬(a = 0 ∧ b = 0)) :
    innerCond buf i = some true := by
  have h1 := drop_succ_of_drop h
  unfold innerCond
  rw [bix_of_drop h]
  by_cases ha : a = 0
  · subst ha
    simp only [ne_eq, not_true_eq_false, if_false, ite_false]
    rw [bix_of_drop h1]
    have hb : b ≠ 0 := fun hb => hab ⟨rfl, hb⟩
    simp [hb]
  · simp [ha]

theorem innerCond_eval1 {buf : List Nat} {i a : Nat}
    (h : buf.drop i = [a]) (ha : a ≠ 0) : innerCond buf i = some true := by
  unfold innerCond
  rw [bix_of_drop h]
  simp [ha]

theorem skipCond_sc4 {buf : List Nat} {s : Nat} {t : List Nat}
    (h : buf.drop s = 0 :: 0 :: 0 :: 1 :: t) :
    skipCond buf s = some false ∧ is3SC buf s = false := by
  have h1 := drop_succ_of_drop h
  have h2 := drop_succ_of_drop h1
  have h3 := drop_succ_of_drop h2
  constructor
  · unfold skipCond
    rw [bix_of_drop h]
    simp only [ne_eq, not_true_eq_false, if_false, ite_false]
    rw [bix_of_drop h1]
    simp only [ne_eq, not_true_eq_false, if_false, ite_false]
    rw [bix_of_drop h2]
    simp only [if_neg, ite_false]
    rw [bix_of_drop h3]
    simp
  · unfold is3SC
    rw [getD_of_drop h, getD_of_drop h1, getD_of_drop h2]
    simp

theorem getLast?_of_drop {n t : List Nat} {p : Nat}
    (h : n.drop p = t) (hne : t ≠ []) : n.getLast? = t.getLast? := by
  conv_lhs => rw [← List.take_append_drop p n, h]
  exact List.getLast?_append_of_ne_nil _ hne

theorem length_eq_of_drop {buf t : List Nat} {i : Nat}
    (h : buf.drop i = t) (hne : t ≠ []) : buf.length = i + t.length := by
  have hl := List.length_drop i buf
  rw [h] at hl
  rcases Nat.lt_or_ge i buf.length with hi | hi
  · omega
  · rw [List.drop_eq_nil_of_le hi] at h
    exact absurd h.symm hne

theorem nalLoop_last (buf n : List Nat) (ns : Nat)
    (hdropn : buf.drop ns = n) (hlast : n.getLast? ≠ some 0) (hwin : noWin n) :
    ∀ t p i fuel, i = ns + p → n.drop p = t → t ≠ [] →
      2 * (buf.length - i) + 9 ≤ fuel →
      scanAux buf fuel (.nal ns i) = some [pySlice buf ns buf.length] := by
  intro t
  induction t with
  | nil => intro p i fuel hi hp hne hfuel; exact absurd rfl hne
  | cons a t' ih =>
    intro p i fuel hi hp hne hfuel
    have hdropi : buf.drop i = a :: t' := by
      rw [hi, ← List.drop_drop, hdropn, hp]
    have hlen : buf.length = i + (a :: t').length := length_eq_of_drop hdropi (by simp)
    have hnlen : n.length = p + (a :: t').length := length_eq_of_drop hp (by simp)
    have hpa : n.getD p 0 = a := getD_of_drop hp
    obtain ⟨f, rfl⟩ : ∃ f, fuel = f + 1 := ⟨fuel - 1, by omega⟩
    have hic : innerCond buf i = some true := by
      rcases ht' : t' with - | ⟨b, t''⟩
      · -- t = [a]: a is the last byte of n
        rw [ht'] at hp hdropi
        have ha : a ≠ 0 := by
          intro h0
          apply hlast
          rw [getLast?_of_drop hp (by simp), h0]
          rfl
        exact innerCond_eval1 hdropi ha
      · rcases ht'' : t'' with - | ⟨c, t3⟩
        · -- t = [a, b]: b is the last byte of n
          rw [ht', ht''] at hp hdropi
          have hb : ¬(a = 0 ∧ b = 0) := by
            rintro ⟨-, hb0⟩
            apply hlast
            rw [getLast?_of_drop hp (by simp), hb0]
            rfl
          exact innerCond_eval2 hdropi hb
        · -- three bytes of n visible: the window is internal to n
          rw [ht', ht''] at hp hdropi hnlen
          rw [innerCond_eval3 hdropi]
          have hpb : n.getD (p + 1) 0 = b := getD_of_drop (drop_succ_of_drop hp)
          have hpc : n.getD (p + 2) 0 = c :=
            getD_of_drop (drop_succ_of_drop (drop_succ_of_drop hp))
          have hw := hwin p (by simp at hnlen; omega) (by simp at hnlen; omega)
          rw [hpa, hpb, hpc] at hw
          by_cases ha : a = 0
          · by_cases hb : b = 0
            · have hc : ¬(c = 0 ∨ c = 1) := fun hc => hw ⟨ha, hb, hc⟩
              subst ha
              subst hb
              simp at hc
              simp [hc]
            · simp [hb]
          · simp [ha]
    simp only [scanAux, hic]
    by_cases hg : buf.length ≤ i + 4
    · rw [if_pos hg]
    · rw [if_neg hg]
      have hne' : t' ≠ [] := by
        rintro rfl
        simp at hlen
        omega
      exact ih (p + 1) (i + 1) f (by omega) (drop_succ_of_drop hp) hne' (by omega)

theorem nalLoop_more (buf n tail : List Nat) (out : List (List Nat)) (ns : Nat)
    (hdropn : buf.drop ns = n ++ [0, 0, 0, 1] ++ tail)
    (hlast : n.getLast? ≠ some 0) (hwin : noWin n)
    (hcont : ∀ f, 2 * (buf.length - (ns + n.length)) + 8 ≤ f →
        scanAux buf f (.skip (ns + n.length)) = some out) :
    ∀ t p i fuel, i = ns + p → p ≤ n.length → n.drop p = t →
      2 * (buf.length - i) + 9 ≤ fuel →
      scanAux buf fuel (.nal ns i)
        = some (pySlice buf ns (ns + n.length) :: out) := by
  intro t
  induction t with
  | nil =>
    intro p i fuel hi hple hp hfuel
    have hpe : p = n.length := by
      have hl := List.length_drop p n
      rw [hp] at hl
      simp at hl
      omega
    subst hi
    subst hpe
    have hdropi : buf.drop (ns + n.length) = 0 :: 0 :: 0 :: 1 :: tail := by
      rw [← List.drop_drop, hdropn, List.append_assoc, List.drop_left]
      rfl
    have hic : innerCond buf (ns + n.length) = some false := by
      rw [innerCond_eval3 hdropi]
      rfl
    obtain ⟨f, rfl⟩ : ∃ f, fuel = f + 1 := ⟨fuel - 1, by omega⟩
    simp only [scanAux, hic]
    rw [hcont f (by omega)]
  | cons a t' ih =>
    intro p i fuel hi hple hp hfuel
    have hplt : p < n.length := by
      have hl := List.length_drop p n
      rw [hp] at hl
      simp at hl
      omega
    have hdropi : buf.drop i = (a :: t') ++ [0, 0, 0, 1] ++ tail := by
      rw [hi, ← List.drop_drop, hdropn]
      have htake : n = n.take p ++ (a :: t') := by
        conv_lhs => rw [← List.take_append_drop p n, hp]
      conv_lhs =>
        rw [htake, List.append_assoc, List.append_assoc]
      rw [List.drop_left' (by simp [List.length_take]; omega)]
      simp [List.append_assoc]
    have hlen : buf.length = i + (t'.length + 5 + tail.length) := by
      have := length_eq_of_drop hdropi (by simp)
      simp at this
      omega
    have hpa : n.getD p 0 = a := getD_of_drop hp
    obtain ⟨f, rfl⟩ : ∃ f, fuel = f + 1 := ⟨fuel - 1, by omega⟩
    have hic : innerCond buf i = some true := by
      rcases ht' : t' with - | ⟨b, t''⟩
      · -- last byte of n, followed by the start code
        rw [ht'] at hp hdropi
        have ha : a ≠ 0 := by
          intro h0
          apply hlast
          rw [getLast?_of_drop hp (by simp), h0]
          rfl
        rw [innerCond_eval3 (show buf.drop i = a :: 0 :: 0 :: (0 :: 1 :: tail) by
          simpa using hdropi)]
        simp [ha]
      · rcases ht'' : t'' with - | ⟨c, t3⟩
        · -- last two bytes of n, then the start code
          rw [ht', ht''] at hp hdropi
          have hb : b ≠ 0 := by
            intro h0
            apply hlast
            rw [getLast?_of_drop hp (by simp), h0]
            rfl
          rw [innerCond_eval3 (show buf.drop i = a :: b :: 0 :: (0 :: 0 :: 1 :: tail) by
            simpa using hdropi)]
          simp [hb]
        · -- window fully inside n
          rw [ht', ht''] at hp hdropi
          have hnlen : n.length = p + (a :: b :: c :: t3).length :=
            length_eq_of_drop hp (by simp)
          rw [innerCond_eval3 (show buf.drop i = a :: b :: c :: (t3 ++ [0,0,0,1] ++ tail) by
            simpa [List.append_assoc] using hdropi)]
          have hpb : n.getD (p + 1) 0 = b := getD_of_drop (drop_succ_of_drop hp)
          have hpc : n.getD (p + 2) 0 = c :=
            getD_of_drop (drop_succ_of_drop (drop_succ_of_drop hp))
          have hw := hwin p (by omega) (by simp at hnlen; omega)
          rw [hpa, hpb, hpc] at hw
          by_cases ha : a = 0
          · by_cases hb : b = 0
            · have hc : ¬(c = 0 ∨ c = 1) := fun hc => hw ⟨ha, hb, hc⟩
              subst ha
              subst hb
              simp at hc
              simp [hc]
            · simp [hb]
          · simp [ha]
    simp only [scanAux, hic]
    rw [if_neg (by omega)]
    exact ih (p + 1) (i + 1) f (by omega) (by omega) (drop_succ_of_drop hp)
      (by omega)

theorem scan_annexB (nals : List (List Nat)) :
    nals ≠ [] → (∀ n ∈ nals, GoodNal n) →
    ∀ buf s fuel, buf.drop s = annexB nals →
      2 * (buf.length - s) + 8 ≤ fuel →
      scanAux buf fuel (.skip s) = some nals := by
  induction nals with
  | nil => intro h; exact absurd rfl h
  | cons n rest ih =>
    intro hx hgood buf s fuel hdrop hfuel
    obtain ⟨hne, hlast, hwin⟩ : GoodNal n := hgood n (by simp)
    rw [annexB_cons] at hdrop
    have hdrop' : buf.drop s = 0 :: 0 :: 0 :: 1 :: (n ++ annexB rest) := by
      simpa using hdrop
    obtain ⟨hsc, hsc3⟩ := skipCond_sc4 hdrop'
    have hlen : buf.length = s + 4 + (n.length + (annexB rest).length) := by
      have := length_eq_of_drop hdrop' (by simp)
      simp at this
      omega
    have hdrop4 : buf.drop (s + 4) = n ++ annexB rest :=
      drop_succ_of_drop (drop_succ_of_drop (drop_succ_of_drop
        (drop_succ_of_drop hdrop')))
    obtain ⟨f, rfl⟩ : ∃ f, fuel = f + 1 := ⟨fuel - 1, by omega⟩
    simp only [scanAux, hsc, hsc3]
    rw [if_neg (by simp)]
    have hslice : pySlice buf (s + 4) (s + 4 + n.length) = n := by
      unfold pySlice
      rw [hdrop4]
      rw [show s + 4 + n.length - (s + 4) = n.length by omega]
      exact List.take_left n (annexB rest)
    cases rest with
    | nil =>
      have hab0 : (annexB ([] : List (List Nat))).length = 0 := rfl
      simp only [annexB, List.foldr_nil, List.append_nil] at hdrop4
      have hslice' : pySlice buf (s + 4) buf.length = n := by
        unfold pySlice
        rw [hdrop4]
        have hl : n.length = buf.length - (s + 4) := by omega
        rw [← hl]
        exact List.take_length n
      rw [nalLoop_last buf n (s + 4) hdrop4 hlast hwin n 0 (s + 4) f
        (by omega) (by simp) hne (by omega)]
      rw [hslice']
    | cons r rs =>
      have hdrop4' : buf.drop (s + 4) = n ++ [0, 0, 0, 1] ++ (r ++ annexB rs) := by
        rw [hdrop4, annexB_cons]
        simp
      have hcont : ∀ g, 2 * (buf.length - (s + 4 + n.length)) + 8 ≤ g →
          scanAux buf g (.skip (s + 4 + n.length)) = some (r :: rs) := by
        intro g hg
        apply ih (by simp) (fun m hm => hgood m (by simp [hm])) buf
          (s + 4 + n.length) g
        · have h5 := List.drop_drop n.length (s + 4) buf
          rw [hdrop4] at h5
          rw [show s + 4 + n.length = n.length + (s + 4) by omega] at h5 ⊢
          rw [← h5, List.drop_left]
        · exact hg
      rw [nalLoop_more buf n (r ++ annexB rs) (r :: rs) (s + 4) hdrop4' hlast
        hwin hcont n 0 (s + 4) f (by omega) (by simp) (by simp) (by omega)]
      rw [hslice]

/-- **C9 (amended)** — scanner idempotence: for every nonempty sequence of
NAL units, each nonempty, not ending in a zero byte, and containing no
3-byte window `00 00 00` or `00 00 01`, running
`H264Encoder._split_bitstream` over `00 00 00 01 ++ N1 ++ 00 00 00 01 ++ N2
++ …` yields exactly `[N1, N2, …]` (and in particular raises no
exception). -/
theorem c9_scanner_idempotent (nals : List (List Nat)) (hne : nals ≠ [])
    (hgood : ∀ n ∈ nals, GoodNal n) :
    splitBitstream (annexB nals) = some nals := by
  unfold splitBitstream
  exact scan_annexB nals hne hgood (annexB nals) 0 _ (by simp) (by omega)

/-- Witness for (amended) C9 at two concrete NAL units. -/
theorem c9_scanner_idempotent_witness :
    splitBitstream (annexB [[0x65, 0x01], [0x41, 0x42]])
      = some [[0x65, 0x01], [0x41, 0x42]] :=
  c9_scanner_idempotent [[0x65, 0x01], [0x41, 0x42]] (by decide) (by decide)

/-- Counterexample to C9 as stated: `N1 = 65 00` and `N2 = 41 42` contain no
internal start code (no 3-byte window exists in a 2-byte string), yet the
scanner truncates `N1`'s trailing zero — the zero fuses with the following
start code into the terminator window `00 00 00`. -/
theorem c9_counterexample :
    splitBitstream (annexB [[0x65, 0x00], [0x41, 0x42]])
        = some [[0x65], [0x41, 0x42]]
    ∧ splitBitstream (annexB [[0x65, 0x00], [0x41, 0x42]])
        ≠ some [[0x65, 0x00], [0x41, 0x42]] := by
  constructor
  · decide
  · decide

set_option maxRecDepth 4000 in
/-- Bit facts about the FU indicator and FU header bytes the fragmenter
builds from a byte `b < 256` (`y = b & 0x1F` is the NAL type). -/
theorem fu_frag_bits : ∀ b < 256,
    ((b &&& 0xE0) ||| 28) &&& 0x1F = 28
    ∧ ((b &&& 0xE0) ||| 28) &&& 0xE0 = b &&& 0xE0
    ∧ ((b &&& 0x1F) ||| 0x80) &&& 0x80 = 128
    ∧ (b &&& 0xE0) ||| (((b &&& 0x1F) ||| 0x80) &&& 0x1F) = b
    ∧ (b &&& 0x1F) &&& 0x80 = 0
    ∧ ((b &&& 0x1F) ||| 0x40) &&& 0x80 = 0 := by decide

/-- `H264PayloadDescriptor.parse` on a first FU-A fragment (S bit set):
the output re-prefixes the start code and the reconstructed NAL header. -/
theorem parse_fu_first (ind hdr : Nat) (chunk : List Nat)
    (hft : ind &&& 0x1F = 28) (hff : hdr &&& 0x80 = 128) :
    parse (ind :: hdr :: chunk)
      = .ok (true, [0, 0, 0, 1, (ind &&& 0xE0) ||| (hdr &&& 0x1F)] ++ chunk) := by
  simp only [parse, NAL_TYPE_FU_A, NAL_TYPE_STAP_A, List.getD_cons_zero,
    List.getD_cons_succ]
  rw [if_neg (by simp)]
  simp only [hft, hff]
  simp

/-- `H264PayloadDescriptor.parse` on a non-first FU-A fragment (S bit
clear): the output is the bare payload chunk. -/
theorem parse_fu_mid (ind hdr : Nat) (chunk : List Nat)
    (hft : ind &&& 0x1F = 28) (hff : hdr &&& 0x80 = 0) :
    parse (ind :: hdr :: chunk) = .ok (false, chunk) := by
  simp only [parse, NAL_TYPE_FU_A, NAL_TYPE_STAP_A, List.getD_cons_zero,
    List.getD_cons_succ]
  rw [if_neg (by simp)]
  simp only [hft, hff]
  simp

/-- `H264PayloadDescriptor.parse` on a single NAL unit of type 1..23:
accepted verbatim with the start code prefixed. -/
theorem parse_single (n : List Nat) (hlen : 2 ≤ n.length)
    (ht1 : 1 ≤ n.getD 0 0 &&& 0x1F) (ht2 : n.getD 0 0 &&& 0x1F ≤ 23) :
    parse n = .ok (true, [0, 0, 0, 1] ++ n) := by
  simp only [parse]
  rw [if_neg (by omega)]
  rw [if_pos ⟨ht1, by omega⟩]

/-- The depacketizer side of the round trip: `h264_depayload` applied to
each RTP payload in order, the Annex B outputs concatenated; the first
`ValueError` aborts the stream. -/
def depayloadConcat : List (List Nat) → Except String (List Nat)
  | [] => .ok []
  | p :: ps =>
    match h264Depayload p with
    | .error e => .error e
    | .ok d =>
      match depayloadConcat ps with
      | .error e => .error e
      | .ok r => .ok (d ++ r)

theorem depayloadConcat_append (xs ys : List (List Nat)) (a b : List Nat)
    (hx : depayloadConcat xs = .ok a) (hy : depayloadConcat ys = .ok b) :
    depayloadConcat (xs ++ ys) = .ok (a ++ b) := by
  induction xs generalizing a with
  | nil =>
    simp only [depayloadConcat] at hx
    injection hx with hx
    subst hx
    simpa using hy
  | cons p ps ih =>
    simp only [depayloadConcat] at hx ⊢
    rcases hd : h264Depayload p with e | d
    · rw [hd] at hx
      exact absurd hx (by simp)
    · rw [hd] at hx
      rcases hr : depayloadConcat ps with e | r
      · rw [hr] at hx
        exact absurd hx (by simp)
      · rw [hr] at hx
        injection hx with hx
        subst hx
        rw [List.append_eq, ih r hr]
        simp

theorem h264Depayload_ok (p : List Nat) (ff : Bool) (out : List Nat)
    (h : parse p = .ok (ff, out)) : h264Depayload p = .ok out := by
  unfold h264Depayload
  rw [h]

theorem pySlice_glue (data : List Nat) (offset s : Nat) :
    pySlice data offset (offset + s) ++ data.drop (offset + s)
      = data.drop offset := by
  unfold pySlice
  rw [show offset + s - offset = s by omega]
  rw [← List.drop_drop s offset data]
  exact List.take_append_drop s (data.drop offset)

/-- Depacketizing the non-first FU-A fragments reassembles the remaining
payload bytes verbatim. -/
theorem fuSpec_depayload_rest (data : List Nat) (b : Nat) (hb : b < 256) :
    ∀ szs offset,
      data.length = offset + szs.sum →
      depayloadConcat (fuSpec data ((b &&& 0xE0) ||| 28) (b &&& 0x1F)
          ((b &&& 0x1F) ||| 0x40) offset (b &&& 0x1F) szs)
        = .ok (data.drop offset) := by
  obtain ⟨hft, -, -, -, hmid, hend⟩ := fu_frag_bits b hb
  intro szs
  induction szs with
  | nil =>
    intro offset hlen
    simp only [List.sum_nil, Nat.add_zero] at hlen
    simp only [fuSpec, depayloadConcat]
    rw [List.drop_eq_nil_of_le hlen.le]
  | cons s t ih =>
    intro offset hlen
    simp only [List.sum_cons] at hlen
    cases t with
    | nil =>
      have hslice : pySlice data offset (offset + s) = data.drop offset := by
        unfold pySlice
        have hl : (data.drop offset).length = s := by
          simp only [List.sum_nil, Nat.add_zero] at hlen
          simp [List.length_drop]
          omega
        rw [show offset + s - offset = s by omega, ← hl, List.take_length]
      simp only [fuSpec, depayloadConcat]
      rw [h264Depayload_ok _ _ _ (parse_fu_mid _ _ _ hft hend)]
      simp [hslice]
    | cons s' t' =>
      rw [fuSpec_cons2 data _ _ _ offset _ s _ (by simp)]
      simp only [depayloadConcat]
      rw [h264Depayload_ok _ _ _ (parse_fu_mid _ _ _ hft hmid)]
      rw [ih (offset + s) (by omega)]
      simp [pySlice_glue]

/-- The FU-A fragmenter and the depacketizer are inverse: concatenating the
depayloaded fragments of an oversized byte-valued NAL unit yields the start
code followed by the original NAL unit. -/
theorem fuA_depayload (data : List Nat) (hbig : PACKET_MAX < data.length)
    (hbytes : ∀ x ∈ data, x < 256) :
    depayloadConcat (packetizeFuA data) = .ok ([0, 0, 0, 1] ++ data) := by
  obtain ⟨ps, hps⟩ : ∃ ps, ps = data.length - NAL_HEADER_SIZE := ⟨_, rfl⟩
  obtain ⟨np, hnp⟩ : ∃ np, np = (ps + (PACKET_MAX - FU_A_HEADER_SIZE) - 1)
      / (PACKET_MAX - FU_A_HEADER_SIZE) := ⟨_, rfl⟩
  have heq := packetizeFuA_eq_fuSpec data ps np hbig hps hnp
  have hps1300 : 1300 ≤ ps := by
    simp [PACKET_MAX] at hbig
    simp [NAL_HEADER_SIZE] at hps
    omega
  have hnp' : np = (ps + 1297) / 1298 := by
    simp [PACKET_MAX, FU_A_HEADER_SIZE] at hnp
    omega
  obtain ⟨h2, hle, hub, hdiv1, hmod, hid⟩ := fu_arith ps np hps1300 hnp'
  have hsum := sched_sum_eq np (ps / np) (ps % np) ps hmod hid
  have hlen1 : data.length = 1 + ps := by
    simp [NAL_HEADER_SIZE] at hps
    simp [PACKET_MAX] at hbig
    omega
  have hdne : data ≠ [] := by
    intro h
    rw [h] at hbig
    simp [PACKET_MAX] at hbig
  have hb : data.getD 0 0 < 256 := by
    cases data with
    | nil => exact absurd rfl hdne
    | cons a t => exact hbytes a (by simp)
  obtain ⟨L, hLdef⟩ : ∃ L, L = List.replicate (ps % np) (ps / np + 1)
      ++ List.replicate (np - ps % np) (ps / np) := ⟨_, rfl⟩
  rw [← hLdef] at heq
  have hLlen : L.length = np := by
    rw [hLdef]
    simp [List.length_replicate]
    omega
  have hLsum : L.sum = ps := by
    rw [hLdef, sum_sched]
    exact hsum
  rcases L with _ | ⟨s0, szs'⟩
  · rw [List.length_nil] at hLlen
    omega
  rcases szs' with _ | ⟨s1, szs''⟩
  · simp only [List.length_cons, List.length_nil] at hLlen
    omega
  simp only [NAL_HEADER_SIZE, NAL_TYPE_FU_A] at heq
  rw [heq]
  rw [fuSpec_cons2 data _ _ _ 1 _ s0 _ (by simp)]
  simp only [depayloadConcat]
  obtain ⟨hft, hnri, hstart, hjoin, -, -⟩ := fu_frag_bits (data.getD 0 0) hb
  rw [h264Depayload_ok _ _ _ (parse_fu_first _ _ _ hft hstart)]
  simp only [List.sum_cons] at hLsum
  rw [fuSpec_depayload_rest data (data.getD 0 0) hb (s1 :: szs'') (1 + s0)
    (by simp only [List.sum_cons]; omega)]
  have hX : (((data.getD 0 0 &&& 0xE0) ||| 28) &&& 0xE0)
      ||| (((data.getD 0 0 &&& 0x1F) ||| 0x80) &&& 0x1F) = data.getD 0 0 := by
    rw [hnri]
    exact hjoin
  have hcons : data.getD 0 0 :: data.drop 1 = data := by
    cases data with
    | nil => exact absurd rfl hdne
    | cons a t => rfl
  simp [List.append_assoc, pySlice_glue, hX, hcons]
  cases data with
  | nil => exact absurd rfl hdne
  | cons a t =>
    simp only [List.getElem?_cons_zero, Option.getD_some, List.tail_cons]
    simp only [List.getD_cons_zero] at hX
    rw [hX]

set_option maxRecDepth 4000 in
theorem stepH_low5_8 : ∀ h < 256,
    ∀ b ∈ ([0, 32, 64, 96, 128, 160, 192, 224] : List Nat),
      stepH h b &&& 31 = h &&& 31 := by decide

/-- One aggregation step leaves the low 5 bits (the NAL type field) of the
STAP-A header untouched. -/
theorem stepH_low5 (h b : Nat) (hh : h < 256) (hb : b < 256) :
    stepH h b &&& 31 = h &&& 31 := by
  have hx := and96_cases b hb
  have hy := and128_cases b hb
  have hmem : (b &&& 96) + (b &&& 128)
      ∈ ([0, 32, 64, 96, 128, 160, 192, 224] : List Nat) := by
    rcases hx with hx | hx | hx | hx <;> rcases hy with hy | hy <;>
      rw [hx, hy] <;> decide
  have e96 : ((b &&& 96) + (b &&& 128)) &&& 96 = b &&& 96 := by
    rcases hx with hx | hx | hx | hx <;> rcases hy with hy | hy <;>
      rw [hx, hy] <;> decide
  have e128 : ((b &&& 96) + (b &&& 128)) &&& 128 = b &&& 128 := by
    rcases hx with hx | hx | hx | hx <;> rcases hy with hy | hy <;>
      rw [hx, hy] <;> decide
  have hkey := stepH_low5_8 h hh ((b &&& 96) + (b &&& 128)) hmem
  have estep : stepH h ((b &&& 96) + (b &&& 128)) = stepH h b := by
    simp only [stepH]
    rw [e96, e128]
  rw [estep] at hkey
  exact hkey

theorem foldl_stepH_low5 (bs : List Nat) :
    ∀ h, h < 256 → (∀ b ∈ bs, b < 256) →
      (bs.foldl stepH h) &&& 31 = h &&& 31 := by
  induction bs with
  | nil => intro h hh hb; rfl
  | cons b bs ih =>
    intro h hh hb
    obtain ⟨-, -, hlt⟩ := stepH_bits h b hh (hb b (by simp))
    have hstep := stepH_low5 h b hh (hb b (by simp))
    simp only [List.foldl_cons]
    rw [ih (stepH h b) hlt (fun x hx => hb x (by simp [hx])), hstep]

set_option maxRecDepth 2000 in
theorem stap_init_low5 : ∀ b < 256,
    (NAL_TYPE_STAP_A ||| (b &&& 0xE0)) &&& 31 = 24 := by decide

/-- The STAP-A header byte the aggregator computes always carries NAL type
24. -/
theorem stapHeaderOf_type (A : List (List Nat)) (hne : A ≠ [])
    (hb : ∀ n ∈ A, n.headD 0 < 256) :
    stapHeaderOf A &&& 0x1F = 24 := by
  rcases A with _ | ⟨a, as⟩
  · exact absurd rfl hne
  have ha : a.headD 0 < 256 := hb a (by simp)
  obtain ⟨hi1, -, -⟩ := stap_init_bits (a.headD 0) ha
  unfold stapHeaderOf
  simp only [List.headD_cons]
  rw [foldl_stepH_low5 ((a :: as).map (fun n => n.headD 0))
    (NAL_TYPE_STAP_A ||| (a.headD 0 &&& 0xE0)) hi1
    (by intro b hb'
        rw [List.mem_map] at hb'
        obtain ⟨n, hn, rfl⟩ := hb'
        exact hb n hn)]
  exact stap_init_low5 (a.headD 0) ha

/-- Parsing a STAP-A packet the aggregator emits recovers the Annex B
rendering of the aggregated NAL units. -/
theorem parse_mkStap (A : List (List Nat)) (hne : A ≠ [])
    (hb : ∀ n ∈ A, n.headD 0 < 256)
    (hsz : ∀ n ∈ A, n.length < 65536) :
    parse (mkStap A) = .ok (true, annexB A) := by
  unfold mkStap
  exact parse_stap (stapHeaderOf A) A (stapHeaderOf_type A hne hb) hne hsz

/-- The NAL units C1 quantifies over: at least two bytes, byte-valued, and
of a plain type 1..23. -/
def C1Good (n : List Nat) : Prop :=
  2 ≤ n.length ∧ (∀ b ∈ n, b < 256)
    ∧ 1 ≤ n.getD 0 0 &&& 0x1F ∧ n.getD 0 0 &&& 0x1F ≤ 23

instance (n : List Nat) : Decidable (C1Good n) := by
  unfold C1Good
  infer_instance

theorem annexB_append (xs ys : List (List Nat)) :
    annexB (xs ++ ys) = annexB xs ++ annexB ys := by
  induction xs with
  | nil => rfl
  | cons n t ih =>
    rw [List.cons_append, annexB_cons, annexB_cons, ih]
    simp [List.append_assoc]

theorem headD_lt (n : List Nat) (hne : n ≠ []) (hb : ∀ b ∈ n, b < 256) :
    n.headD 0 < 256 := by
  cases n with
  | nil => exact absurd rfl hne
  | cons a t => exact hb a (by simp)

/-- Depacketizing every payload the driver emits, in order, reconstructs
the Annex B rendering of the pending NAL units. -/
theorem packetizeGo_depayload :
    ∀ fuel (cur : Option (List Nat)) (it : List (List Nat)),
      cur.toList.length + it.length < fuel →
      (cur = none → it = []) →
      (∀ n ∈ cur.toList ++ it, C1Good n) →
      depayloadConcat (packetizeGo fuel cur it)
        = .ok (annexB (cur.toList ++ it)) := by
  intro fuel
  induction fuel with
  | zero =>
    intro cur it hf hnone hgood
    omega
  | succ f ih =>
    intro cur it hf hnone hgood
    cases cur with
    | none =>
      rw [hnone rfl]
      rfl
    | some p =>
      simp only [Option.toList_some, List.length_cons, List.singleton_append] at hf hgood ⊢
      obtain ⟨hl2, hbyt, ht1, ht2⟩ : C1Good p := hgood p (by simp)
      by_cases hbig : PACKET_MAX < p.length
      · simp only [packetizeGo, if_pos hbig]
        have hm : it.head?.toList.length + it.tail.length ≤ it.length := by
          cases it with
          | nil => simp
          | cons a t => simp [Nat.add_comm]
        have hnone' : it.head? = none → it.tail = [] := by
          cases it <;> simp
        have hgood' : ∀ n ∈ it.head?.toList ++ it.tail, C1Good n := by
          rw [head_cons_tail]
          intro n hn
          exact hgood n (by simp [hn])
        have hrec := ih it.head? it.tail (by omega) hnone' hgood'
        rw [head_cons_tail] at hrec
        rw [depayloadConcat_append _ _ _ _ (fuA_depayload p hbig hbyt) hrec]
        rw [annexB_cons]
      · simp only [packetizeGo, if_neg hbig]
        obtain ⟨taken, next, it', pl, heq, hdec, hnn, hcls⟩ := stapA_spec p it
        rw [heq]
        have hmeas : next.toList.length + it'.length ≤ it.length := by
          have := congrArg List.length hdec
          simp only [List.length_append] at this
          omega
        have hgood' : ∀ n ∈ next.toList ++ it', C1Good n := by
          intro n hn
          refine hgood n (List.mem_cons_of_mem p ?_)
          rw [hdec]
          rcases List.mem_append.mp hn with h | h
          · exact List.mem_append.mpr (Or.inl (List.mem_append.mpr (Or.inr h)))
          · exact List.mem_append.mpr (Or.inr h)
        have hrec := ih next it' (by omega) hnn hgood'
        simp only [depayloadConcat]
        rcases hcls with ⟨hpl, htk⟩ | ⟨htk, hpl, hple, hsz⟩
        · subst htk
          simp only [List.nil_append] at hdec
          rw [hpl]
          rw [h264Depayload_ok _ _ _ (parse_single p hl2 ht1 ht2)]
          rw [hrec, ← hdec]
          rw [annexB_cons]
        · have hmemA : ∀ n ∈ p :: taken, C1Good n := by
            intro n hn
            rcases List.mem_cons.mp hn with rfl | hn
            · exact ⟨hl2, hbyt, ht1, ht2⟩
            · refine hgood n (List.mem_cons_of_mem p ?_)
              rw [hdec]
              exact List.mem_append.mpr (Or.inl (List.mem_append.mpr (Or.inl hn)))
          have hheads : ∀ n ∈ p :: taken, n.headD 0 < 256 := by
            intro n hn
            obtain ⟨hn2, hnb, -, -⟩ := hmemA n hn
            exact headD_lt n (by intro h; rw [h] at hn2; simp at hn2) hnb
          have hszs : ∀ n ∈ p :: taken, n.length < 65536 := by
            intro n hn
            have := hsz n hn
            omega
          rw [hpl]
          rw [h264Depayload_ok _ _ _ (parse_mkStap (p :: taken) (by simp) hheads hszs)]
          rw [hrec]
          show Except.ok (annexB (p :: taken) ++ annexB (next.toList ++ it'))
              = Except.ok (annexB (p :: it))
          rw [← annexB_append]
          have hsplit : (p :: taken) ++ (next.toList ++ it') = p :: it := by
            rw [hdec]
            simp [List.append_assoc]
          rw [hsplit]

/-- `_packetize` then `h264_depayload`: the concatenated depacketizer
outputs are exactly the Annex B rendering of the input NAL units. -/
theorem packetize_depayload (nals : List (List Nat))
    (hg : ∀ n ∈ nals, C1Good n) :
    depayloadConcat (packetize nals) = .ok (annexB nals) := by
  unfold packetize
  have hm : nals.head?.toList.length + nals.tail.length ≤ nals.length := by
    cases nals with
    | nil => simp
    | cons a t => simp [Nat.add_comm]
  have h := packetizeGo_depayload (nals.length + 1) nals.head? nals.tail
    (by omega) (by cases nals <;> simp)
    (by rw [head_cons_tail]; exact hg)
  rw [head_cons_tail] at h
  exact h

/-- The reconstruction rule the claim prescribes (written from the claim's
words, for comparison with `depayloadConcat`): an extra `00 00 00 01` is
prepended to each depacketizer output whose descriptor has
`first_fragment = true`. -/
def depayloadConcatClaim : List (List Nat) → Except String (List Nat)
  | [] => .ok []
  | p :: ps =>
    match parse p with
    | .error e => .error e
    | .ok (ff, d) =>
      match depayloadConcatClaim ps with
      | .error e => .error e
      | .ok r => .ok ((if ff then [0, 0, 0, 1] ++ d else d) ++ r)

/-- **C1 (corrected)** — Annex B round trip: for every nonempty sequence of
NAL units — each at least two bytes, byte-valued, of plain type 1..23, not
ending in a zero byte and containing no `00 00 00` / `00 00 01` window —
packetizing and then depacketizing each RTP payload in order and
concatenating the outputs yields a buffer whose start-code scan is exactly
the original NAL sequence.  (As stated the claim fails: `parse` already
prepends the start code whenever `first_fragment = true`, so the claim's
extra `00 00 00 01` duplicates it and the rescan yields a spurious empty
NAL unit — see the counterexample.) -/
theorem c1_annexb_roundtrip (nals : List (List Nat)) (hne : nals ≠ [])
    (hgood : ∀ n ∈ nals, C1Good n ∧ GoodNal n) :
    ∃ B, depayloadConcat (packetize nals) = .ok B
      ∧ splitBitstream B = some nals := by
  refine ⟨annexB nals,
    packetize_depayload nals (fun n hn => (hgood n hn).1), ?_⟩
  unfold splitBitstream
  exact scan_annexB nals hne (fun n hn => (hgood n hn).2) (annexB nals) 0 _
    (by simp) (by omega)

/-- Witness for (corrected) C1 at a single two-byte SPS-type NAL unit. -/
theorem c1_annexb_roundtrip_witness :
    ∃ B, depayloadConcat (packetize [[0x67, 0xAA]]) = .ok B
      ∧ splitBitstream B = some [[0x67, 0xAA]] :=
  c1_annexb_roundtrip [[0x67, 0xAA]] (by decide) (by decide)

/-- Counterexample to C1 as stated: the scan of `B = 00 00 00 01 67 AA`
yields the single NAL `67 AA`; the packetizer returns it verbatim, its
descriptor has `first_fragment = true` and `parse` already emits
`00 00 00 01 67 AA`; the claim's extra start code gives
`B' = 00 00 00 01 00 00 00 01 67 AA`, whose scan is `[[], [67 AA]]`, not
the original single-NAL sequence. -/
theorem c1_counterexample :
    splitBitstream [0, 0, 0, 1, 0x67, 0xAA] = some [[0x67, 0xAA]]
    ∧ packetize [[0x67, 0xAA]] = [[0x67, 0xAA]]
    ∧ parse [0x67, 0xAA] = .ok (true, [0, 0, 0, 1, 0x67, 0xAA])
    ∧ depayloadConcatClaim (packetize [[0x67, 0xAA]])
        = .ok [0, 0, 0, 1, 0, 0, 0, 1, 0x67, 0xAA]
    ∧ splitBitstream [0, 0, 0, 1, 0, 0, 0, 1, 0x67, 0xAA]
        = some [[], [0x67, 0xAA]]
    ∧ some [[], [0x67, 0xAA]] ≠ some [[0x67, 0xAA]] :=
  ⟨by decide, by decide, rfl, rfl, by decide, by decide⟩
